import Mathlib

/-!
Verification of the crossword construction engine and interactive solver of
the Siga-IA repository (src/App.tsx, handleGeneratePuzzle and helpers, and the
CrosswordViewer component).

Modelling conventions:
* A grid is a function `Int → Int → Option Cell`.  The JavaScript grid is a
  30×30 array of rows; reading `newGrid[r]` with `r` outside `[0, 30)` yields
  `undefined`, and a subsequent element access throws, while an access through
  optional chaining yields `undefined`.  Reading a row at an out-of-range
  column index is a plain property read that yields `undefined` (treated as an
  empty cell), and assigning at such an index stores the value, which is why
  the column index is not clamped in the model.  `readEx` models an unguarded
  element access (`none` = a thrown TypeError), `readOpt` models an access
  through optional chaining.
* Machine strings are Lean `String`s; `String.length`/`List Char` length agree
  with the JavaScript `length` for the basic-multilingual-plane characters the
  app manipulates.
* `str.normalize("NFD")` is modelled by `nfdChar`, a decomposition table for
  the Latin letters with diacritics that the app's Portuguese content uses;
  every other character decomposes to itself.
-/

inductive Direction : Type
  | across
  | down
deriving DecidableEq, Repr

structure Cell where
  letter : Char
  clueNumber : Option Nat := none
  across : Option Nat := none
  down : Option Nat := none
deriving DecidableEq, Repr

def Grid : Type := Int → Int → Option Cell

def emptyGrid : Grid := fun _ _ => none

def GRID_SIZE : Int := 30

/-- Unguarded element access `newGrid[r][c]`: `none` models the TypeError
thrown when the row index is outside the allocated 30 rows; `some v` is the
read value (`v = none` for an absent cell, including out-of-range columns). -/
def readEx (g : Grid) (r c : Int) : Option (Option Cell) :=
  if 0 ≤ r ∧ r < GRID_SIZE then some (g r c) else none

/-- Optional-chaining access `newGrid[r]?.[c]`: out-of-range row indices give
`undefined`, never a TypeError. -/
def readOpt (g : Grid) (r c : Int) : Option Cell :=
  if 0 ≤ r ∧ r < GRID_SIZE then g r c else none

def updateGrid (g : Grid) (r c : Int) (cell : Cell) : Grid :=
  fun r' c' => if r' = r ∧ c' = c then some cell else g r' c'

/-! ## Word normalisation (src/App.tsx lines 997-1000) -/

/-- Combining diacritical marks range `[̀-ͯ]` removed by the
`replace` call. -/
def isCombiningMark (c : Char) : Bool :=
  0x300 ≤ c.toNat && c.toNat ≤ 0x36F

/-- Unicode NFD decomposition, restricted to the accented Latin letters used
by the app's Portuguese words; all other characters are their own
decomposition. -/
def nfdChar (c : Char) : List Char :=
  match c with
  | 'á' => ['a', '́'] | 'à' => ['a', '̀'] | 'â' => ['a', '̂']
  | 'ã' => ['a', '̃'] | 'ä' => ['a', '̈']
  | 'é' => ['e', '́'] | 'è' => ['e', '̀'] | 'ê' => ['e', '̂']
  | 'ë' => ['e', '̈']
  | 'í' => ['i', '́'] | 'ì' => ['i', '̀'] | 'î' => ['i', '̂']
  | 'ï' => ['i', '̈']
  | 'ó' => ['o', '́'] | 'ò' => ['o', '̀'] | 'ô' => ['o', '̂']
  | 'õ' => ['o', '̃'] | 'ö' => ['o', '̈']
  | 'ú' => ['u', '́'] | 'ù' => ['u', '̀'] | 'û' => ['u', '̂']
  | 'ü' => ['u', '̈']
  | 'ç' => ['c', '̧'] | 'ñ' => ['n', '̃']
  | 'Á' => ['A', '́'] | 'À' => ['A', '̀'] | 'Â' => ['A', '̂']
  | 'Ã' => ['A', '̃'] | 'Ä' => ['A', '̈']
  | 'É' => ['E', '́'] | 'È' => ['E', '̀'] | 'Ê' => ['E', '̂']
  | 'Ë' => ['E', '̈']
  | 'Í' => ['I', '́'] | 'Ì' => ['I', '̀'] | 'Î' => ['I', '̂']
  | 'Ï' => ['I', '̈']
  | 'Ó' => ['O', '́'] | 'Ò' => ['O', '̀'] | 'Ô' => ['O', '̂']
  | 'Õ' => ['O', '̃'] | 'Ö' => ['O', '̈']
  | 'Ú' => ['U', '́'] | 'Ù' => ['U', '̀'] | 'Û' => ['U', '̂']
  | 'Ü' => ['U', '̈']
  | 'Ç' => ['C', '̧'] | 'Ñ' => ['N', '̃']
  | other => [other]

/-- `normalizeString` from src/App.tsx line 997:
`str ? str.normalize("NFD").replace(/[̀-ͯ]/g, "").toUpperCase() : ''`. -/
def normalizeString (s : String) : String :=
  if s.isEmpty then ""
  else String.mk ((((s.data.flatMap nfdChar).filter
    (fun c => !isCombiningMark c)).map Char.toUpper))

structure Entry where
  word : String
  clue : String
deriving DecidableEq, Repr

/-- JavaScript `String.prototype.trim`: strip leading and trailing
whitespace.  Implemented structurally on the character list so that it
evaluates inside the kernel. -/
def jsTrim (s : String) : String :=
  String.mk
    (((s.data.dropWhile Char.isWhitespace).reverse.dropWhile
      Char.isWhitespace).reverse)

/-- Per-entry normalisation from line 998:
`{ word: normalizeString(entry.word), clue: entry.clue.trim() }`. -/
def normEntry (e : Entry) : Entry :=
  { word := normalizeString e.word, clue := jsTrim e.clue }

/-- The filter from line 998: `item.word.length > 1 && item.clue.length > 0`. -/
def keepEntry (e : Entry) : Bool :=
  e.word.length > 1 && e.clue.length > 0

/-- Entries surviving the map/filter of line 998. -/
def survivors (entries : List Entry) : List Entry :=
  (entries.map normEntry).filter keepEntry

/-- A JavaScript-`Map` `set`: an existing key keeps its position but takes the
new value; a new key is appended. -/
def mapUpsert (m : List (String × Entry)) (k : String) (v : Entry) :
    List (String × Entry) :=
  if m.any (fun pr => pr.1 = k) then
    m.map (fun pr => if pr.1 = k then (pr.1, v) else pr)
  else m ++ [(k, v)]

def jsMapInsertAll (m : List (String × Entry)) (l : List Entry) :
    List (String × Entry) :=
  l.foldl (fun acc e => mapUpsert acc e.word e) m

/-- The dedupe of line 999:
`[...new Map(words.map(item => [item.word, item])).values()]`. -/
def dedupeWords (l : List Entry) : List Entry :=
  (jsMapInsertAll [] l).map Prod.snd

/-- Lines 997-999 of src/App.tsx: normalise, filter, dedupe. -/
def normalizeWords (entries : List Entry) : List Entry :=
  dedupeWords (survivors entries)

/-- Stable insertion preserving the order of equal-length words; together with
`sortWordsDesc` this models the stable `sort((a, b) => b.word.length -
a.word.length)` of line 1000. -/
def insertByLen (x : Entry) : List Entry → List Entry
  | [] => [x]
  | y :: ys =>
      if x.word.length ≤ y.word.length then y :: insertByLen x ys
      else x :: y :: ys

def sortWordsDesc (l : List Entry) : List Entry :=
  l.foldl (fun acc x => insertByLen x acc) []

/-! Spec-side vocabulary for the normalisation claim. -/

/-- First-occurrence deduplication of a list of words (spec-side notion used
to state what the `Map`-based dedupe computes). -/
def dedupFirstAux (seen : List String) : List String → List String
  | [] => []
  | x :: xs =>
      if x ∈ seen then dedupFirstAux seen xs
      else x :: dedupFirstAux (x :: seen) xs

def dedupFirst (l : List String) : List String :=
  dedupFirstAux [] l

/-- The last entry of `l` whose word is `w` (spec-side notion: the kept
occurrence among duplicates). -/
def lastEntryFor (l : List Entry) (w : String) : Option Entry :=
  (l.filter (fun e => e.word = w)).getLast?

/-! ## Constraint checker (src/App.tsx lines 1013-1041, `canPlaceWord`) -/

/-- Per-letter loop of the `across` branch (lines 1019-1026).  The row index
is the outer array index of every access here, so `readEx` models the element
access `newGrid[row][col + i]`; once it has succeeded the neighbour reads
`newGrid[row - 1][...]` / `newGrid[row + 1][...]` are guarded by
`row > 0` / `row < GRID_SIZE - 1` and cannot throw, so they read the grid
directly. -/
def checkAcrossCells (g : Grid) (row : Int) : List Char → Int → Option Bool
  | [], _ => some true
  | ch :: rest, c =>
      match readEx g row c with
      | none => none
      | some (some cell) =>
          if cell.letter = ch then checkAcrossCells g row rest (c + 1)
          else some false
      | some none =>
          if row > 0 ∧ (g (row - 1) c).isSome then some false
          else if row < GRID_SIZE - 1 ∧ (g (row + 1) c).isSome then some false
          else checkAcrossCells g row rest (c + 1)

/-- Per-letter loop of the `down` branch (lines 1031-1038).  Column indices
are property reads of a row array, so out-of-range columns read the grid
function directly (never throwing); row indices go through `readEx`. -/
def checkDownCells (g : Grid) (col : Int) : List Char → Int → Option Bool
  | [], _ => some true
  | ch :: rest, r =>
      match readEx g r col with
      | none => none
      | some (some cell) =>
          if cell.letter = ch then checkDownCells g col rest (r + 1)
          else some false
      | some none =>
          if col > 0 ∧ (g r (col - 1)).isSome then some false
          else if col < GRID_SIZE - 1 ∧ (g r (col + 1)).isSome then some false
          else checkDownCells g col rest (r + 1)

/-- `canPlaceWord(word, row, col, direction)` (lines 1013-1041).  `some b`
is a returned boolean, `none` a thrown TypeError (reading a row index
outside the allocated array). -/
def canPlaceWord (g : Grid) (w : List Char) (row col : Int) :
    Direction → Option Bool
  | .across =>
      if row < 0 ∨ col < 0 then some false
      else if col + w.length > GRID_SIZE then some false
      else
        match (if col > 0 then readEx g row (col - 1) else some none) with
        | none => none
        | some (some _) => some false
        | some none =>
            match (if col + w.length < GRID_SIZE then
                readEx g row (col + w.length) else some none) with
            | none => none
            | some (some _) => some false
            | some none => checkAcrossCells g row w col
  | .down =>
      if row < 0 ∨ col < 0 then some false
      else if row + w.length > GRID_SIZE then some false
      else
        match (if row > 0 then readEx g (row - 1) col else some none) with
        | none => none
        | some (some _) => some false
        | some none =>
            match (if row + w.length < GRID_SIZE then
                readEx g (row + w.length) col else some none) with
            | none => none
            | some (some _) => some false
            | some none => checkDownCells g col w row

/-! Spec-side feasibility predicate, written from the claim's words: the word
fits entirely inside the N×N grid, the cells immediately before and after it
along the direction are empty or out of bounds, and every position either
matches an existing letter or is empty with both orthogonal neighbours
empty. -/

/-- A cell of the N×N grid proper: `none` for every coordinate outside
`[0, N) × [0, N)`. -/
def specCell (g : Grid) (r c : Int) : Option Cell :=
  if 0 ≤ r ∧ r < GRID_SIZE ∧ 0 ≤ c ∧ c < GRID_SIZE then g r c else none

/-- Position of letter `i` of a word starting at `(row, col)`. -/
def letterPos (row col : Int) (dir : Direction) (i : Nat) : Int × Int :=
  match dir with
  | .across => (row, col + i)
  | .down => (row + i, col)

def specFits (w : List Char) (row col : Int) (dir : Direction) : Prop :=
  0 ≤ row ∧ 0 ≤ col ∧
    match dir with
    | .across => row < GRID_SIZE ∧ col + w.length ≤ GRID_SIZE
    | .down => col < GRID_SIZE ∧ row + w.length ≤ GRID_SIZE

def specEnds (g : Grid) (w : List Char) (row col : Int) (dir : Direction) :
    Prop :=
  match dir with
  | .across =>
      specCell g row (col - 1) = none ∧ specCell g row (col + w.length) = none
  | .down =>
      specCell g (row - 1) col = none ∧ specCell g (row + w.length) col = none

def specLetterOk (g : Grid) (w : List Char) (row col : Int) (dir : Direction)
    (i : Nat) : Prop :=
  match specCell g (letterPos row col dir i).1 (letterPos row col dir i).2 with
  | some cell => cell.letter = w.getD i 'A'
  | none =>
      match dir with
      | .across =>
          specCell g (row - 1) (col + i) = none ∧
            specCell g (row + 1) (col + i) = none
      | .down =>
          specCell g (row + i) (col - 1) = none ∧
            specCell g (row + i) (col + 1) = none

def specCanPlace (g : Grid) (w : List Char) (row col : Int)
    (dir : Direction) : Prop :=
  specFits w row col dir ∧ specEnds g w row col dir ∧
    ∀ i, i < w.length → specLetterOk g w row col dir i

instance (g : Grid) (w : List Char) (row col : Int) (dir : Direction) :
    Decidable (specLetterOk g w row col dir i) := by
  unfold specLetterOk
  cases specCell g (letterPos row col dir i).1 (letterPos row col dir i).2 <;>
    cases dir <;> exact inferInstance

instance (g : Grid) (w : List Char) (row col : Int) (dir : Direction) :
    Decidable (specCanPlace g w row col dir) := by
  unfold specCanPlace specFits specEnds
  cases dir <;> exact inferInstance

/-! ## Placement engine (src/App.tsx lines 1005-1115) -/

structure Placed where
  word : String
  clue : String
  row : Int
  col : Int
  direction : Direction
deriving DecidableEq, Repr

structure ClueEntry where
  number : Nat
  clue : String
deriving DecidableEq, Repr

structure Fit where
  row : Int
  col : Int
  direction : Direction
deriving DecidableEq, Repr

/-- The intersection count of lines 1084-1088: how many of the word's cells
land on already-filled cells; the reads use optional chaining. -/
def countIntersections (g : Grid) (w : List Char) (row col : Int)
    (dir : Direction) : Nat :=
  (List.range w.length).countP fun l =>
    (readOpt g (letterPos row col dir l).1 (letterPos row col dir l).2).isSome

/-- Candidate placement of word letter `j` over letter `k` of the placed word
`p` (lines 1080-1082): the direction is perpendicular to `p`'s. -/
def mkFit (p : Placed) (j k : Nat) : Fit :=
  match p.direction with
  | .across => { row := p.row - j, col := p.col + k, direction := .down }
  | .down => { row := p.row + k, col := p.col - j, direction := .across }

/-- All (j, placed word, k) candidates with matching letters, in the scan
order of the three nested loops of lines 1076-1078. -/
def candidateList (w : List Char) (placed : List Placed) : List Fit :=
  w.enum.flatMap fun jc =>
    placed.flatMap fun p =>
      p.word.data.enum.filterMap fun kc =>
        if jc.2 = kc.2 then some (mkFit p jc.1 kc.1) else none

/-- One step of the best-fit accumulation (lines 1083-1093): a feasible
candidate replaces the current best only with strictly more intersections. -/
def bestStep (g : Grid) (w : List Char) (acc : Option Fit × Nat)
    (cand : Fit) : Option Fit × Nat :=
  if canPlaceWord g w cand.row cand.col cand.direction = some true then
    let inter := countIntersections g w cand.row cand.col cand.direction
    if acc.2 < inter then (some cand, inter) else acc
  else acc

/-- The best-fit search for one word (lines 1074-1098): `some fit` exactly
when `bestFit && maxIntersections > 0` holds at the end of the scan. -/
def findBestFit (g : Grid) (w : List Char) (placed : List Placed) :
    Option Fit :=
  let r := (candidateList w placed).foldl (bestStep g w) (none, 0)
  match r.1 with
  | some f => if 0 < r.2 then some f else none
  | none => none

/-- State threaded through the construction run: the grid, the two clue
lists, the `numberLocations` map (modelled with `(row, col)` pairs standing
for the `"row-col"` string keys, which the pairs determine injectively), the
`clueCounter`, the placed words, the pending `words` and the `attempts`
counter. -/
structure BuildState where
  grid : Grid
  cluesAcross : List ClueEntry
  cluesDown : List ClueEntry
  clueCounter : Nat
  numberLocations : List ((Int × Int) × Nat)
  placedWords : List Placed
  words : List Entry
  attempts : Nat

def lookupPos (m : List ((Int × Int) × Nat)) (p : Int × Int) : Option Nat :=
  (m.find? (fun pr => pr.1 = p)).map (·.2)

/-- Body of one iteration of the letter-writing loop (lines 1056-1058): the
cell keeps its letter if it already exists, gets `{ letter: ch }` otherwise;
then the field named by the direction is set to the clue number, and, when
`i = 0` (the start cell), `clueNumber` as well. -/
def writtenCell (old : Option Cell) (ch : Char) (dir : Direction) (n : Nat)
    (i : Nat) : Cell :=
  let base : Cell := match old with
    | none => { letter := ch }
    | some cl => cl
  let withDir : Cell := match dir with
    | .across => { base with across := some n }
    | .down => { base with down := some n }
  if i = 0 then { withDir with clueNumber := some n } else withDir

/-- The letter-writing loop of lines 1053-1059.  `i` is the loop index
(`0` at the start cell). -/
def writeWordCells (dir : Direction) (n : Nat) :
    Grid → List Char → Int → Int → Nat → Grid
  | g, [], _, _, _ => g
  | g, ch :: rest, r, c, i =>
      let g' := updateGrid g r c (writtenCell (g r c) ch dir n i)
      match dir with
      | .across => writeWordCells dir n g' rest r (c + 1) (i + 1)
      | .down => writeWordCells dir n g' rest (r + 1) c (i + 1)

/-- `placeWordOnGrid` (lines 1042-1060): assign or reuse the clue number for
the start cell, append the clue to the matching list, and write the cells.
Does not touch `placedWords`, `words` or `attempts` (the caller does). -/
def placeWordOnGrid (st : BuildState) (wordObj : Entry) (row col : Int)
    (dir : Direction) : BuildState :=
  let posKey := (row, col)
  let assigned : Nat × Nat × List ((Int × Int) × Nat) :=
    match lookupPos st.numberLocations posKey with
    | some n => (n, st.clueCounter, st.numberLocations)
    | none =>
        (st.clueCounter, st.clueCounter + 1,
          st.numberLocations ++ [(posKey, st.clueCounter)])
  let clueNum := assigned.1
  { st with
    grid := writeWordCells dir clueNum st.grid wordObj.word.data row col 0
    cluesAcross :=
      match dir with
      | .across => st.cluesAcross ++ [⟨clueNum, wordObj.clue⟩]
      | .down => st.cluesAcross
    cluesDown :=
      match dir with
      | .across => st.cluesDown
      | .down => st.cluesDown ++ [⟨clueNum, wordObj.clue⟩]
    clueCounter := assigned.2.1
    numberLocations := assigned.2.2 }

/-- A committed placement: `placeWordOnGrid` followed by the
`placedWords.push({ ...wordObj, ...fit })` that accompanies it at both call
sites (lines 1066-1067 and 1099-1100). -/
def commitWord (st : BuildState) (wordObj : Entry) (row col : Int)
    (dir : Direction) : BuildState :=
  let st' := placeWordOnGrid st wordObj row col dir
  { st' with
    placedWords := st'.placedWords ++
      [{ word := wordObj.word, clue := wordObj.clue, row := row, col := col,
         direction := dir }] }

/-- Body of the inner `for` at one index (lines 1072-1105): look the word up,
search its best fit, and on success commit it, remove it from `words`
(`splice`), and zero `attempts`. -/
def tryIndex (st : BuildState) (i : Nat) : Option BuildState :=
  match st.words.get? i with
  | none => none
  | some wordObj =>
      match findBestFit st.grid wordObj.word.data st.placedWords with
      | none => none
      | some fit =>
          let st' := commitWord st wordObj fit.row fit.col fit.direction
          some { st' with words := st.words.eraseIdx i, attempts := 0 }

/-- The inner `for` loop scanning `words` from the last index toward `0`,
breaking at the first commit. -/
def scanDown (st : BuildState) : Nat → Option BuildState
  | 0 => none
  | i + 1 =>
      match tryIndex st i with
      | some st' => some st'
      | none => scanDown st i

/-- `words.length > 0 && attempts < words.length` (line 1070). -/
def loopCond (st : BuildState) : Bool :=
  !st.words.isEmpty && st.attempts < st.words.length

/-- One pass of the outer `while` loop: a commit, or `attempts++` when the
whole scan places nothing. -/
def loopStep (st : BuildState) : BuildState :=
  match scanDown st st.words.length with
  | some st' => st'
  | none => { st with attempts := st.attempts + 1 }

/-- The outer `while` loop, with explicit fuel.  `some st` means the loop
condition became false within `fuel` passes; `none` means the fuel ran out
with the condition still true (shown unreachable for quadratic fuel by the
termination theorem). -/
def loopRun : Nat → BuildState → Option BuildState
  | 0, st => if loopCond st then none else some st
  | fuel + 1, st =>
      if loopCond st then loopRun fuel (loopStep st) else some st

/-- State after the unconditional first placement (lines 1062-1067): the
longest word goes across at `row = ⌊N/2⌋`, `col = ⌊(N - len)/2⌋` on the empty
grid.  Integer division on `Int` is Euclidean and so agrees with
`Math.floor` for the positive divisor 2. -/
def stateAfterFirst (first : Entry) (rest : List Entry) : BuildState :=
  commitWord
    { grid := emptyGrid, cluesAcross := [], cluesDown := [], clueCounter := 1,
      numberLocations := [], placedWords := [], words := rest, attempts := 0 }
    first (GRID_SIZE / 2) ((GRID_SIZE - first.word.length) / 2) .across

/-- Stable ascending insertion by clue number, modelling the stable
`sort((a, b) => a.number - b.number)` of lines 1114-1115. -/
def insertClue (x : ClueEntry) : List ClueEntry → List ClueEntry
  | [] => [x]
  | y :: ys =>
      if y.number ≤ x.number then y :: insertClue x ys
      else x :: y :: ys

def sortCluesAsc (l : List ClueEntry) : List ClueEntry :=
  l.foldl (fun acc x => insertClue x acc) []

/-- Result of a successful construction: the final grid, the two sorted clue
lists, the engine's placed-word records, and the pending words left over
(reported as unplaceable, non-fatally). -/
structure GenResult where
  grid : Grid
  cluesAcross : List ClueEntry
  cluesDown : List ClueEntry
  placedWords : List Placed
  unplaced : List Entry

/-- The construction algorithm of `handleGeneratePuzzle`
(src/App.tsx lines 996-1115): normalise, dedupe and sort the entries, fail
with the validation error when fewer than 2 remain, place the first word,
run the greedy loop, and sort the clue lists.  The fuel `rest.length²` is
justified by the termination theorem; the fuel-exhausted branch is
unreachable. -/
def generatePuzzle (entries : List Entry) : Except String GenResult :=
  let ws := sortWordsDesc (normalizeWords entries)
  if ws.length < 2 then
    Except.error "São necessárias pelo menos 2 palavras válidas."
  else
    match ws with
    | [] => Except.error "A lista de palavras está vazia."
    | first :: rest =>
        match loopRun (rest.length * rest.length) (stateAfterFirst first rest) with
        | none => Except.error "fuel exhausted"
        | some st =>
            Except.ok
              { grid := st.grid
                cluesAcross := sortCluesAsc st.cluesAcross
                cluesDown := sortCluesAsc st.cluesDown
                placedWords := st.placedWords
                unplaced := st.words }

/-- Reading the grid from `(r, c)` along `dir` for `n` cells. -/
def readCells (g : Grid) (dir : Direction) : Int → Int → Nat → Option (List Char)
  | _, _, 0 => some []
  | r, c, n + 1 =>
      match g r c with
      | some cell =>
          (match dir with
            | .across => readCells g dir r (c + 1) n
            | .down => readCells g dir (r + 1) c n).map (cell.letter :: ·)
      | none => none

/-- Reading the grid along a placed word's start and direction for its
length. -/
def readWord (g : Grid) (pw : Placed) : Option (List Char) :=
  readCells g pw.direction pw.row pw.col pw.word.data.length

/-! ## Interactive solver (src/unnamed/part_000, `CrosswordViewer`) -/

structure SelectedCell where
  row : Int
  col : Int
  direction : Direction
deriving DecidableEq, Repr

/-- The viewer's interaction state: the `userInput` record (modelled as a
function from `(row, col)` pairs, standing injectively for the `"row-col"`
string keys), the selected cell, and the checking flag. -/
structure SolverState where
  userInput : Int × Int → Option String
  selectedCell : Option SelectedCell
  checking : Bool

/-- The three `useState` initial values (lines 77-79). -/
def initialSolverState : SolverState :=
  { userInput := fun _ => none, selectedCell := none, checking := false }

/-- JavaScript truthiness of an optional clue number (`cell.across` /
`cell.down`): `undefined` and `0` are falsy. -/
def jsTruthyNum : Option Nat → Bool
  | some n => n != 0
  | none => false

/-- `handleCellClick` (lines 111-127).  `grid?.[row]?.[col]` is an
optional-chaining read, so a missing cell (including out-of-range indices)
takes the first branch, which clears the selection. -/
def handleCellClick (g : Grid) (s : SolverState) (row col : Int) :
    SolverState :=
  match readOpt g row col with
  | none => { s with selectedCell := none }
  | some cell =>
      match s.selectedCell with
      | some sel =>
          if sel.row = row ∧ sel.col = col then
            if sel.direction = .across ∧ jsTruthyNum cell.down then
              { s with selectedCell := some ⟨row, col, .down⟩ }
            else if sel.direction = .down ∧ jsTruthyNum cell.across then
              { s with selectedCell := some ⟨row, col, .across⟩ }
            else s
          else
            { s with selectedCell := some ⟨row, col, if jsTruthyNum cell.across then .across else .down⟩ }
      | none =>
          { s with selectedCell := some ⟨row, col, if jsTruthyNum cell.across then .across else .down⟩ }

/-- `handleInputChange` (lines 98-109): normalise the typed value and store
it under the cell's key.  The auto-advance of lines 101-107 only moves DOM
focus and changes no state. -/
def handleInputChange (s : SolverState) (row col : Int) (value : String) :
    SolverState :=
  { s with userInput := fun p =>
      if p = (row, col) then some (normalizeString value) else s.userInput p }

/-- The input transition at component level: the cell's `<input>` carries
`disabled={isChecking}` (line 207), so while `checking` is true no change
event fires and the state is untouched; otherwise `handleInputChange`
runs. -/
def inputTransition (s : SolverState) (row col : Int) (value : String) :
    SolverState :=
  if s.checking then s else handleInputChange s row col value

/-- `handleCheck` (line 129). -/
def handleCheck (s : SolverState) : SolverState :=
  { s with checking := true }

/-- The `solution` record built by `handleReveal` (lines 133-136), as the
lookup function it denotes.  The outer `grid.forEach` visits exactly the 30
allocated rows (the outer array is created with 30 rows and never extended,
since an out-of-range row write throws).  The inner `row.forEach` visits
every present element at a non-negative index — including indices ≥ 30 on
rows that placements extended past column 29 — skips holes between them,
and does not visit negative-index properties (cells stored at negative
columns by an off-grid first word are not revealed); `if (cell)` then keeps
only present cells.  Hence the record holds `cell.letter` exactly at the
pairs `(r, c)` with `0 ≤ r < 30`, `0 ≤ c` and a present cell, which this
function returns directly (a skipped hole and an absent key both read back
as `undefined`). -/
def revealInput (g : Grid) : Int × Int → Option String :=
  fun p =>
    if 0 ≤ p.1 ∧ p.1 < GRID_SIZE ∧ 0 ≤ p.2 then
      (g p.1 p.2).map (fun cell => String.singleton cell.letter)
    else none

/-- `handleReveal` (lines 131-139): overwrite `userInput` with the solution
and clear `checking`; the selection is untouched. -/
def handleReveal (g : Grid) (s : SolverState) : SolverState :=
  { s with userInput := revealInput g, checking := false }

/-- `handleReset` (line 141). -/
def handleReset (_s : SolverState) : SolverState :=
  { userInput := fun _ => none, selectedCell := none, checking := false }

/-- The per-position compatibility that a successful `canPlaceWord` implies:
each cell of the word's span is empty or already holds the word's letter. -/
def LettersCompat (g : Grid) (w : List Char) (row col : Int)
    (dir : Direction) : Prop :=
  ∀ j, j < w.length →
    g (letterPos row col dir j).1 (letterPos row col dir j).2 = none ∨
      ∃ cl, g (letterPos row col dir j).1 (letterPos row col dir j).2 =
          some cl ∧ cl.letter = w.getD j 'A'

/-- Round-trip invariant of the construction state: reading the grid along
every placed word reproduces that word. -/
def RoundInv (st : BuildState) : Prop :=
  ∀ pw ∈ st.placedWords, readWord st.grid pw = some pw.word.data

/-- Numbering invariant of the construction state: numbers in the map are
below the counter; keys and values of the map are duplicate-free; map
entries correspond exactly to grid cells carrying a `clueNumber`; every clue
in either list points, through a placed word of the matching direction, to a
map entry at that word's start; and every pending word is non-empty. -/
def NumInv (st : BuildState) : Prop :=
  (∀ pr ∈ st.numberLocations, pr.2 < st.clueCounter) ∧
  (st.numberLocations.map Prod.fst).Nodup ∧
  (st.numberLocations.map Prod.snd).Nodup ∧
  (∀ (p : Int × Int) (n : Nat), (p, n) ∈ st.numberLocations ↔
    ∃ cell, st.grid p.1 p.2 = some cell ∧ cell.clueNumber = some n) ∧
  (∀ cl ∈ st.cluesAcross, ∃ pw ∈ st.placedWords, pw.direction = .across ∧
    ((pw.row, pw.col), cl.number) ∈ st.numberLocations) ∧
  (∀ cl ∈ st.cluesDown, ∃ pw ∈ st.placedWords, pw.direction = .down ∧
    ((pw.row, pw.col), cl.number) ∈ st.numberLocations) ∧
  (∀ e ∈ st.words, e.word.data.length ≠ 0)

/-- Triangular numbers, the termination measure of the placement loop:
`triangle L - attempts` strictly decreases on every pass. -/
def triangle : Nat → Nat
  | 0 => 0
  | n + 1 => (n + 1) + triangle n

/-! ## Theorems: the interactive solver -/

/-- Claim C9 (confirmed): performing Reveal and then Reset yields exactly the
initial SolverState: empty input, no selection, checking off. -/
theorem c9_reveal_then_reset (g : Grid) (s : SolverState) :
    handleReset (handleReveal g s) = initialSolverState := rfl

/-- Claim C10 (confirmed): Reveal leaves the selection exactly as it was,
sets `checking` to false, and overwrites `userInput` with every revealed
grid cell's letter: at every position of the 30 allocated rows with a
non-negative column index — including columns beyond 29 on rows extended by
placements — the stored value is the cell's letter (absent for empty
cells), and every other key (negative columns, rows outside the 30
allocated) is absent. -/
theorem c10_reveal_frame (g : Grid) (s : SolverState) :
    (handleReveal g s).selectedCell = s.selectedCell ∧
    (handleReveal g s).checking = false ∧
    (∀ r c : Int, 0 ≤ r → r < GRID_SIZE → 0 ≤ c →
      (handleReveal g s).userInput (r, c) =
        (g r c).map (fun cell => String.singleton cell.letter)) ∧
    (∀ p : Int × Int, ¬(0 ≤ p.1 ∧ p.1 < GRID_SIZE ∧ 0 ≤ p.2) →
      (handleReveal g s).userInput p = none) := by
  refine ⟨rfl, rfl, ?_, ?_⟩
  · intro r c h1 h2 h3
    show revealInput g (r, c) = _
    unfold revealInput
    rw [if_pos ⟨h1, h2, h3⟩]
  · intro p hp
    show revealInput g p = none
    unfold revealInput
    rw [if_neg hp]

/-- Witness for C10 at a concrete grid, state and cell whose column lies
beyond the 30th column of its row. -/
theorem c10_reveal_frame_witness :
    (handleReveal emptyGrid initialSolverState).userInput (3, 35) =
      (emptyGrid 3 35).map (fun cell => String.singleton cell.letter) :=
  (c10_reveal_frame emptyGrid initialSolverState).2.2.1 3 35
    (by decide) (by decide) (by decide)

/-- Claim C8 (confirmed): while `checking` is true the input transition is
rejected — the `<input>` elements are disabled, so the state (in particular
`userInput`) is unchanged. -/
theorem c8_input_locked_while_checking (s : SolverState) (row col : Int)
    (value : String) (h : s.checking = true) :
    inputTransition s row col value = s := by
  unfold inputTransition
  rw [h]
  rfl

/-- Witness for C8: typing into a checking-locked state changes nothing. -/
theorem c8_input_locked_witness :
    inputTransition { userInput := fun _ => none, selectedCell := none, checking := true } 3 4 "A" =
      { userInput := fun _ => none, selectedCell := none, checking := true } :=
  c8_input_locked_while_checking _ 3 4 "A" rfl

/-- Claim C7 counterexample: selecting a null cell is not a no-op — with a
cell selected, clicking the (empty) cell `(1, 1)` of the empty grid clears
`selectedCell`, so the state changes. -/
theorem c7_select_null_counterexample :
    readOpt emptyGrid 1 1 = none ∧
      handleCellClick emptyGrid
          { userInput := fun _ => none, selectedCell := some ⟨2, 2, .across⟩, checking := false } 1 1 ≠
        { userInput := fun _ => none, selectedCell := some ⟨2, 2, .across⟩, checking := false } := by
  constructor
  · rfl
  · intro h
    have h2 := congrArg SolverState.selectedCell h
    simp [handleCellClick, readOpt, emptyGrid] at h2

/-- Claim C7 as amended: selecting a non-existent (null) cell clears the
selection and leaves `userInput` and `checking` unchanged; no error is
raised. -/
theorem c7_select_null_clears_selection (g : Grid) (s : SolverState)
    (row col : Int) (h : readOpt g row col = none) :
    handleCellClick g s row col = { s with selectedCell := none } := by
  unfold handleCellClick
  rw [h]

/-- Witness for the amended C7 at a concrete grid and state. -/
theorem c7_select_null_witness :
    handleCellClick emptyGrid
        { userInput := fun _ => none, selectedCell := some ⟨2, 2, .across⟩, checking := false } 1 1 =
      { userInput := fun _ => none, selectedCell := none, checking := false } :=
  c7_select_null_clears_selection emptyGrid _ 1 1 rfl

/-! ## Theorems: termination of the placement loop -/

theorem triangle_le_sq (n : Nat) : triangle n ≤ n * n := by
  induction n with
  | zero => simp [triangle]
  | succ m ih =>
      unfold triangle
      calc m + 1 + triangle m ≤ m + 1 + m * m := by omega
      _ ≤ (m + 1) * (m + 1) := by ring_nf; omega

theorem le_triangle (n : Nat) : n ≤ triangle n := by
  cases n with
  | zero => simp [triangle]
  | succ m => simp only [triangle]; omega

theorem triangle_succ_sub (n : Nat) : triangle (n + 1) - (n + 1) = triangle n := by
  simp only [triangle]; omega

theorem tryIndex_shape (st : BuildState) (i : Nat) (st' : BuildState)
    (h : tryIndex st i = some st') :
    st'.words.length + 1 = st.words.length ∧ st'.attempts = 0 := by
  unfold tryIndex at h
  cases hg : st.words.get? i with
  | none => rw [hg] at h; cases h
  | some wordObj =>
      rw [hg] at h
      dsimp only at h
      cases hf : findBestFit st.grid wordObj.word.data st.placedWords with
      | none => rw [hf] at h; cases h
      | some fit =>
          rw [hf] at h
          dsimp only at h
          cases h
          have hi : i < st.words.length := List.get?_eq_some.mp hg |>.1
          exact ⟨List.length_eraseIdx_add_one hi, rfl⟩

theorem scanDown_shape (st : BuildState) :
    ∀ (k : Nat) (st' : BuildState), scanDown st k = some st' →
      st'.words.length + 1 = st.words.length ∧ st'.attempts = 0 := by
  intro k
  induction k with
  | zero => intro st' h; cases h
  | succ i ih =>
      intro st' h
      unfold scanDown at h
      cases ht : tryIndex st i with
      | some st'' =>
          rw [ht] at h
          cases h
          exact tryIndex_shape st i st' ht
      | none =>
          rw [ht] at h
          exact ih st' h

theorem loopRun_isSome :
    ∀ (fuel : Nat) (st : BuildState),
      st.attempts ≤ st.words.length →
      triangle st.words.length - st.attempts ≤ fuel →
      (loopRun fuel st).isSome := by
  intro fuel
  induction fuel with
  | zero =>
      intro st hle hfuel
      unfold loopRun
      cases hc : loopCond st with
      | false => simp
      | true =>
          exfalso
          unfold loopCond at hc
          have hlt : st.attempts < st.words.length :=
            of_decide_eq_true ((Bool.and_eq_true _ _).mp hc).2
          have h3 := le_triangle st.words.length
          omega
  | succ f ih =>
      intro st hle hfuel
      unfold loopRun
      cases hc : loopCond st with
      | false => simp
      | true =>
          simp only [if_pos rfl]
          have hcond := hc
          unfold loopCond at hcond
          have hlt : st.attempts < st.words.length :=
            of_decide_eq_true ((Bool.and_eq_true _ _).mp hcond).2
          unfold loopStep
          cases hs : scanDown st st.words.length with
          | some st' =>
              obtain ⟨hlen, hatt⟩ := scanDown_shape st _ st' hs
              have hL : st.words.length = st'.words.length + 1 := by omega
              have ht1 := triangle_succ_sub st'.words.length
              have ht2 := le_triangle (st'.words.length + 1)
              rw [hL] at hfuel hlt
              apply ih st'
              · omega
              · rw [hatt]
                omega
          | none =>
              have h3 := le_triangle st.words.length
              apply ih
              · simp only
                omega
              · simp only
                omega

/-- Claim C3 (confirmed): from the state right after the unconditional first
placement, the outer placement loop always exits within `pending²` passes
(`pending` being the loop-entry pending list), whatever the words and their
order: `loopRun` with quadratic fuel never exhausts it. -/
theorem c3_loop_terminates (first : Entry) (rest : List Entry) :
    (loopRun (rest.length * rest.length) (stateAfterFirst first rest)).isSome := by
  have hw : (stateAfterFirst first rest).words = rest := rfl
  have ha : (stateAfterFirst first rest).attempts = 0 := rfl
  apply loopRun_isSome
  · rw [ha]; omega
  · rw [ha, hw]
    have := triangle_le_sq rest.length
    omega

/-! ## Theorems: validation error (C6) -/

theorem insertByLen_length (x : Entry) :
    ∀ l : List Entry, (insertByLen x l).length = l.length + 1 := by
  intro l
  induction l with
  | nil => rfl
  | cons y ys ih =>
      unfold insertByLen
      by_cases h : x.word.length ≤ y.word.length
      · simp [h, ih]
      · simp [h]

theorem sortWordsDesc_length (l : List Entry) :
    (sortWordsDesc l).length = l.length := by
  suffices h : ∀ (l acc : List Entry),
      (l.foldl (fun acc x => insertByLen x acc) acc).length =
        acc.length + l.length by
    simpa using h l []
  intro l
  induction l with
  | nil => intro acc; simp
  | cons x xs ih =>
      intro acc
      rw [List.foldl_cons, ih, insertByLen_length]
      simp only [List.length_cons]
      omega

/-- Claim C6 (confirmed): construction fails with the validation error
exactly when fewer than 2 entries survive normalisation; in that case no
puzzle value is produced (the result is the error, not an `ok`).  Individual
malformed entries are filtered inside `normalizeWords` without any error. -/
theorem c6_validation_error (entries : List Entry) :
    generatePuzzle entries =
        Except.error "São necessárias pelo menos 2 palavras válidas." ↔
      (normalizeWords entries).length < 2 := by
  have hlen := sortWordsDesc_length (normalizeWords entries)
  unfold generatePuzzle
  by_cases h2 : (sortWordsDesc (normalizeWords entries)).length < 2
  · simp only [if_pos h2]
    exact ⟨fun _ => by omega, fun _ => trivial⟩
  · simp only [if_neg h2]
    cases hws : sortWordsDesc (normalizeWords entries) with
    | nil => rw [hws] at h2; simp at h2
    | cons first rest =>
        have hsome := loopRun_isSome (rest.length * rest.length)
          (stateAfterFirst first rest) (by exact Nat.zero_le _)
          (by
            have := triangle_le_sq rest.length
            have ha : (stateAfterFirst first rest).attempts = 0 := rfl
            have hw : (stateAfterFirst first rest).words = rest := rfl
            rw [ha, hw]
            omega)
        cases hrun : loopRun (rest.length * rest.length) (stateAfterFirst first rest) with
        | none => rw [hrun] at hsome; cases hsome
        | some st =>
            dsimp only
            rw [hrun]
            constructor
            · intro h; cases h
            · intro h
              omega

/-! ## Theorems: word normalisation (C1) -/

theorem any_key_iff (m : List (String × Entry)) (k : String) :
    m.any (fun pr => pr.1 = k) = true ↔ k ∈ m.map Prod.fst := by
  rw [List.any_eq_true]
  constructor
  · rintro ⟨pr, hmem, hk⟩
    exact List.mem_map.mpr ⟨pr, hmem, of_decide_eq_true hk⟩
  · rintro h
    obtain ⟨pr, hmem, hk⟩ := List.mem_map.mp h
    exact ⟨pr, hmem, decide_eq_true hk⟩

theorem mapUpsert_keys (m : List (String × Entry)) (k : String) (v : Entry) :
    (mapUpsert m k v).map Prod.fst =
      if k ∈ m.map Prod.fst then m.map Prod.fst
      else m.map Prod.fst ++ [k] := by
  unfold mapUpsert
  by_cases h : k ∈ m.map Prod.fst
  · rw [if_pos ((any_key_iff m k).mpr h), if_pos h, List.map_map]
    apply List.map_congr_left
    intro pr _
    by_cases hp : pr.1 = k
    · simp [hp]
    · simp [hp]
  · rw [if_neg (fun ha => h ((any_key_iff m k).mp ha)), if_neg h, List.map_append]
    rfl

theorem dedupFirstAux_cons (seen : List String) (x : String)
    (xs : List String) :
    dedupFirstAux seen (x :: xs) =
      if x ∈ seen then dedupFirstAux seen xs
      else x :: dedupFirstAux (x :: seen) xs := rfl

theorem dedupFirstAux_congr (l : List String) :
    ∀ (s1 s2 : List String), (∀ x, x ∈ s1 ↔ x ∈ s2) →
      dedupFirstAux s1 l = dedupFirstAux s2 l := by
  induction l with
  | nil => intro s1 s2 _; rfl
  | cons x xs ih =>
      intro s1 s2 h
      rw [dedupFirstAux_cons, dedupFirstAux_cons]
      have hcong : ∀ y, y ∈ x :: s1 ↔ y ∈ x :: s2 := by
        intro y
        rw [List.mem_cons, List.mem_cons, h y]
      by_cases hx : x ∈ s1
      · rw [if_pos hx, if_pos ((h x).mp hx)]
        exact ih s1 s2 h
      · rw [if_neg hx, if_neg (fun h2 => hx ((h x).mpr h2))]
        exact congrArg (x :: ·) (ih (x :: s1) (x :: s2) hcong)

theorem jsMapInsertAll_keys :
    ∀ (l : List Entry) (m : List (String × Entry)),
      (jsMapInsertAll m l).map Prod.fst =
        m.map Prod.fst ++
          dedupFirstAux (m.map Prod.fst) (l.map (fun e => e.word)) := by
  intro l
  induction l with
  | nil => intro m; simp [jsMapInsertAll, dedupFirstAux]
  | cons e l' ih =>
      intro m
      have step : jsMapInsertAll m (e :: l') =
          jsMapInsertAll (mapUpsert m e.word e) l' := rfl
      rw [step, ih, mapUpsert_keys]
      simp only [List.map_cons, dedupFirstAux_cons]
      by_cases h : e.word ∈ m.map Prod.fst
      · rw [if_pos h, if_pos h]
      · rw [if_neg h, if_neg h]
        rw [List.append_assoc, List.singleton_append]
        refine congrArg (m.map Prod.fst ++ ·) (congrArg (e.word :: ·) ?_)
        apply dedupFirstAux_congr
        intro x
        rw [List.mem_append, List.mem_singleton, List.mem_cons, or_comm]

theorem mapUpsert_mem (m : List (String × Entry)) (k : String) (v : Entry)
    (pr : String × Entry) (h : pr ∈ mapUpsert m k v) :
    pr = (k, v) ∨ (pr ∈ m ∧ pr.1 ≠ k) := by
  unfold mapUpsert at h
  by_cases ha : m.any (fun pr => pr.1 = k) = true
  · rw [if_pos ha] at h
    obtain ⟨pr0, hpr0, heq⟩ := List.mem_map.mp h
    by_cases hk : pr0.1 = k
    · left
      rw [if_pos hk] at heq
      rw [← heq, hk]
    · right
      rw [if_neg hk] at heq
      exact ⟨heq ▸ hpr0, heq ▸ hk⟩
  · rw [if_neg ha] at h
    rcases List.mem_append.mp h with hm | hs
    · right
      refine ⟨hm, fun hk => ha ?_⟩
      exact List.any_eq_true.mpr ⟨pr, hm, decide_eq_true hk⟩
    · left
      exact List.mem_singleton.mp hs

theorem lastEntryFor_cons_of_some (e : Entry) (l : List Entry) (k : String)
    (v : Entry) (h : lastEntryFor l k = some v) :
    lastEntryFor (e :: l) k = some v := by
  unfold lastEntryFor at *
  simp only [List.filter_cons]
  by_cases he : (e.word = k)
  · simp only [decide_eq_true he, if_pos]
    cases hf : l.filter (fun x => x.word = k) with
    | nil => rw [hf] at h; cases h
    | cons a t =>
        rw [hf] at h
        rw [List.getLast?_cons_cons]
        exact h
  · simp only [decide_eq_false he, Bool.false_eq_true, if_neg]
    exact h

theorem lastEntryFor_cons_self (e : Entry) (l : List Entry) (k : String)
    (hk : e.word = k) (hnone : ∀ x ∈ l, x.word ≠ k) :
    lastEntryFor (e :: l) k = some e := by
  unfold lastEntryFor
  have hf : l.filter (fun x => x.word = k) = [] := by
    apply List.filter_eq_nil_iff.mpr
    intro x hx
    simp [hnone x hx]
  simp only [List.filter_cons, decide_eq_true hk, if_pos, hf]
  rfl

/-- Key part of the dedupe correctness: every pair in the folded map either
records the last occurrence of its key in the processed list, or survives
untouched from the initial accumulator. -/
theorem jsMapInsertAll_last :
    ∀ (l : List Entry) (m : List (String × Entry)) (pr : String × Entry),
      pr ∈ jsMapInsertAll m l →
      lastEntryFor l pr.1 = some pr.2 ∨
        (pr ∈ m ∧ ∀ x ∈ l, x.word ≠ pr.1) := by
  intro l
  induction l with
  | nil =>
      intro m pr h
      right
      exact ⟨h, fun x hx => absurd hx (List.not_mem_nil x)⟩
  | cons e l' ih =>
      intro m pr h
      have step : jsMapInsertAll m (e :: l') =
          jsMapInsertAll (mapUpsert m e.word e) l' := rfl
      rw [step] at h
      rcases ih (mapUpsert m e.word e) pr h with hlast | ⟨hmem, hnone⟩
      · left
        exact lastEntryFor_cons_of_some e l' pr.1 pr.2 hlast
      · rcases mapUpsert_mem m e.word e pr hmem with hnew | ⟨hold, hne⟩
        · left
          rw [hnew]
          exact lastEntryFor_cons_self e l' e.word rfl (by
            intro x hx
            have := hnone x hx
            rw [hnew] at this
            exact this)
        · right
          refine ⟨hold, ?_⟩
          intro x hx
          rcases List.mem_cons.mp hx with rfl | hx'
          · exact fun hw => hne hw.symm
          · exact hnone x hx'

theorem mapUpsert_kv (m : List (String × Entry)) (k : String) (v : Entry)
    (hv : v.word = k) (hm : ∀ pr ∈ m, pr.1 = pr.2.word) :
    ∀ pr ∈ mapUpsert m k v, pr.1 = pr.2.word := by
  intro pr h
  rcases mapUpsert_mem m k v pr h with hnew | ⟨hold, _⟩
  · rw [hnew, hv]
  · exact hm pr hold

theorem jsMapInsertAll_kv :
    ∀ (l : List Entry) (m : List (String × Entry)),
      (∀ pr ∈ m, pr.1 = pr.2.word) →
      ∀ pr ∈ jsMapInsertAll m l, pr.1 = pr.2.word := by
  intro l
  induction l with
  | nil => intro m hm; exact hm
  | cons e l' ih =>
      intro m hm
      exact ih (mapUpsert m e.word e) (mapUpsert_kv m e.word e rfl hm)

/-- Claim C1 counterexample: an entry whose normalized word contains a space
(and is neither trimmed away nor rejected) survives normalisation, though the
claim says it must be dropped; the same list also shows no word trimming
occurs. -/
theorem c1_normalization_counterexample :
    normalizeWords [⟨"AB CD", "x"⟩] = [⟨"AB CD", "x"⟩] ∧
      ' ' ∈ ("AB CD".data) ∧
      normalizeWords [⟨" AB", "y"⟩] = [⟨" AB", "y"⟩] := by
  refine ⟨by decide, by decide, by decide⟩

/-- Claim C1 as amended: each entry's word is diacritic-stripped (NFD with
combining marks dropped) and uppercased — but not trimmed — and its clue is
trimmed; an entry is dropped if and only if the normalized word is empty or
has length 1, or the trimmed clue is empty (length >15 and embedded
spaces/hyphens are NOT rejected here); among surviving entries with the same
normalized word only the last occurrence is kept, listed at the position of
the word's first occurrence. -/
theorem c1_normalization_amended (entries : List Entry) :
    (normalizeWords entries).map (fun e => e.word) =
        dedupFirst ((survivors entries).map (fun e => e.word)) ∧
      ∀ e ∈ normalizeWords entries,
        lastEntryFor (survivors entries) e.word = some e := by
  constructor
  · unfold normalizeWords dedupeWords dedupFirst
    have hkeys := jsMapInsertAll_keys (survivors entries) []
    simp only [List.map_nil, List.nil_append] at hkeys
    rw [← hkeys, List.map_map]
    apply List.map_congr_left
    intro pr hpr
    exact (jsMapInsertAll_kv (survivors entries) [] (by intro pr h; cases h)
      pr hpr).symm
  · intro e he
    unfold normalizeWords dedupeWords at he
    obtain ⟨pr, hpr, hsnd⟩ := List.mem_map.mp he
    have hkv := jsMapInsertAll_kv (survivors entries) []
      (by intro pr h; cases h) pr hpr
    rcases jsMapInsertAll_last (survivors entries) [] pr hpr with hlast | ⟨hm, _⟩
    · rw [← hsnd, ← hkv]
      exact hlast
    · cases hm

/-- Witness for the amended C1: a concrete list with an accented duplicate
word; the kept entry is the later one, and the word list is the
first-occurrence dedupe of the survivors. -/
theorem c1_normalization_witness :
    lastEntryFor (survivors [⟨"maçã", "fruta"⟩, ⟨"", "x"⟩, ⟨"MACA", "outra"⟩])
        (Entry.word ⟨"MACA", "outra"⟩) = some ⟨"MACA", "outra"⟩ :=
  (c1_normalization_amended [⟨"maçã", "fruta"⟩, ⟨"", "x"⟩, ⟨"MACA", "outra"⟩]).2
    ⟨"MACA", "outra"⟩ (by decide)

/-! ## Theorems: the constraint checker (C2) -/

theorem c2_canplace_counterexample :
    canPlaceWord emptyGrid "AB".data 0 30 .down = some true ∧
      ¬ specCanPlace emptyGrid "AB".data 0 30 .down := by
  constructor
  · decide
  · decide

theorem specLetterOk_shift_across (g : Grid) (row col : Int) (ch : Char)
    (rest : List Char) (j : Nat) :
    specLetterOk g (ch :: rest) row col .across (j + 1) ↔
      specLetterOk g rest row (col + 1) .across j := by
  unfold specLetterOk letterPos
  have h1 : col + ((j : Int) + 1) = (col + 1) + (j : Int) := by ring
  simp only [List.getD_cons_succ, Nat.cast_add, Nat.cast_one, h1]

theorem specLetterOk_shift_down (g : Grid) (row col : Int) (ch : Char)
    (rest : List Char) (j : Nat) :
    specLetterOk g (ch :: rest) row col .down (j + 1) ↔
      specLetterOk g rest (row + 1) col .down j := by
  unfold specLetterOk letterPos
  have h1 : row + ((j : Int) + 1) = (row + 1) + (j : Int) := by ring
  simp only [List.getD_cons_succ, Nat.cast_add, Nat.cast_one, h1]

theorem checkAcrossCells_iff (g : Grid) (row : Int) (hr0 : 0 ≤ row)
    (hr1 : row < GRID_SIZE) :
    ∀ (w : List Char) (c : Int), 0 ≤ c → c + w.length ≤ GRID_SIZE →
      (checkAcrossCells g row w c = some true ↔
        ∀ i, i < w.length → specLetterOk g w row c .across i) := by
  intro w
  induction w with
  | nil =>
      intro c _ _
      exact ⟨fun _ i hi => absurd hi (Nat.not_lt_zero i), fun _ => rfl⟩
  | cons ch rest ih =>
      intro c hc0 hclen
      have hc30 : c < GRID_SIZE := by
        have : ((ch :: rest).length : Int) = rest.length + 1 := by
          simp [List.length_cons]
        omega
      have hcell : readEx g row c = some (g row c) := by
        unfold readEx
        rw [if_pos ⟨hr0, hr1⟩]
      have hspec0 : specCell g row c = g row c := by
        unfold specCell
        rw [if_pos ⟨hr0, hr1, hc0, hc30⟩]
      have hok0 : ∀ P : Prop,
          (specLetterOk g (ch :: rest) row c .across 0 ↔ P) →
          (specLetterOk g (ch :: rest) row c .across 0 ↔ P) := fun _ h => h
      have hlen' : (c + 1) + (rest.length : Int) ≤ GRID_SIZE := by
        have : ((ch :: rest).length : Int) = rest.length + 1 := by
          simp [List.length_cons]
        omega
      have hsplit : ∀ (Q : Nat → Prop),
          (∀ i, i < (ch :: rest).length → Q i) ↔
            (Q 0 ∧ ∀ j, j < rest.length → Q (j + 1)) := by
        intro Q
        constructor
        · intro H
          exact ⟨H 0 (Nat.succ_pos _), fun j hj => H (j + 1) (by simpa using hj)⟩
        · rintro ⟨h0, hs⟩ i hi
          cases i with
          | zero => exact h0
          | succ j => exact hs j (by simpa using hi)
      have hzero : specLetterOk g (ch :: rest) row c .across 0 ↔
          (match g row c with
            | some cell => cell.letter = ch
            | none =>
                specCell g (row - 1) c = none ∧
                  specCell g (row + 1) c = none) := by
        unfold specLetterOk letterPos
        simp only [Nat.cast_zero, add_zero, List.getD_cons_zero, hspec0]
      unfold checkAcrossCells
      rw [hcell]
      cases hg : g row c with
      | some cell =>
          simp only
          rw [hsplit]
          by_cases hl : cell.letter = ch
          · rw [if_pos hl, ih (c + 1) (by omega) hlen']
            constructor
            · intro H
              refine ⟨?_, ?_⟩
              · rw [hzero, hg]
                exact hl
              · intro j hj
                rw [specLetterOk_shift_across]
                exact H j hj
            · rintro ⟨h0, hs⟩ j hj
              rw [← specLetterOk_shift_across g row c ch rest j]
              exact hs j hj
          · rw [if_neg hl]
            constructor
            · intro h; cases h
            · rintro ⟨h0, _⟩
              exfalso
              rw [hzero, hg] at h0
              exact hl h0
      | none =>
          simp only
          rw [hsplit]
          have hup : specCell g (row - 1) c =
              if 0 < row then g (row - 1) c else none := by
            unfold specCell
            by_cases h : (0 : Int) < row
            · rw [if_pos ⟨by omega, by omega, hc0, hc30⟩, if_pos h]
            · rw [if_neg (fun hcon => absurd hcon.1 (by omega)), if_neg h]
          have hdn : specCell g (row + 1) c =
              if row < GRID_SIZE - 1 then g (row + 1) c else none := by
            unfold specCell
            by_cases h : row < GRID_SIZE - 1
            · rw [if_pos ⟨by omega, by omega, hc0, hc30⟩, if_pos h]
            · rw [if_neg (fun hcon => absurd hcon.2.1 (by omega)), if_neg h]
          by_cases hL : row > 0 ∧ (g (row - 1) c).isSome = true
          · rw [if_pos hL]
            constructor
            · intro h; cases h
            · rintro ⟨h0, _⟩
              exfalso
              rw [hzero, hg] at h0
              rw [hup, if_pos hL.1] at h0
              rw [h0.1] at hL
              simp at hL
          · rw [if_neg hL]
            by_cases hR : row < GRID_SIZE - 1 ∧ (g (row + 1) c).isSome = true
            · rw [if_pos hR]
              constructor
              · intro h; cases h
              · rintro ⟨h0, _⟩
                exfalso
                rw [hzero, hg] at h0
                rw [hdn, if_pos hR.1] at h0
                rw [h0.2] at hR
                simp at hR
            · rw [if_neg hR, ih (c + 1) (by omega) hlen']
              have hupnone : specCell g (row - 1) c = none := by
                rw [hup]
                by_cases h : (0 : Int) < row
                · rw [if_pos h]
                  cases hgu : g (row - 1) c with
                  | none => rfl
                  | some cl => exact absurd ⟨h, by rw [hgu]; rfl⟩ hL
                · rw [if_neg h]
              have hdnnone : specCell g (row + 1) c = none := by
                rw [hdn]
                by_cases h : row < GRID_SIZE - 1
                · rw [if_pos h]
                  cases hgd : g (row + 1) c with
                  | none => rfl
                  | some cl => exact absurd ⟨h, by rw [hgd]; rfl⟩ hR
                · rw [if_neg h]
              constructor
              · intro H
                refine ⟨?_, ?_⟩
                · rw [hzero, hg]
                  exact ⟨hupnone, hdnnone⟩
                · intro j hj
                  rw [specLetterOk_shift_across]
                  exact H j hj
              · rintro ⟨h0, hs⟩ j hj
                rw [← specLetterOk_shift_across g row c ch rest j]
                exact hs j hj

theorem checkDownCells_iff (g : Grid) (col : Int) (hc0 : 0 ≤ col)
    (hc1 : col < GRID_SIZE) :
    ∀ (w : List Char) (r : Int), 0 ≤ r → r + w.length ≤ GRID_SIZE →
      (checkDownCells g col w r = some true ↔
        ∀ i, i < w.length → specLetterOk g w r col .down i) := by
  intro w
  induction w with
  | nil =>
      intro r _ _
      exact ⟨fun _ i hi => absurd hi (Nat.not_lt_zero i), fun _ => rfl⟩
  | cons ch rest ih =>
      intro r hr0 hrlen
      have hr30 : r < GRID_SIZE := by
        have : ((ch :: rest).length : Int) = rest.length + 1 := by
          simp [List.length_cons]
        omega
      have hcell : readEx g r col = some (g r col) := by
        unfold readEx
        rw [if_pos ⟨hr0, hr30⟩]
      have hspec0 : specCell g r col = g r col := by
        unfold specCell
        rw [if_pos ⟨hr0, hr30, hc0, hc1⟩]
      have hlen' : (r + 1) + (rest.length : Int) ≤ GRID_SIZE := by
        have : ((ch :: rest).length : Int) = rest.length + 1 := by
          simp [List.length_cons]
        omega
      have hsplit : ∀ (Q : Nat → Prop),
          (∀ i, i < (ch :: rest).length → Q i) ↔
            (Q 0 ∧ ∀ j, j < rest.length → Q (j + 1)) := by
        intro Q
        constructor
        · intro H
          exact ⟨H 0 (Nat.succ_pos _), fun j hj => H (j + 1) (by simpa using hj)⟩
        · rintro ⟨h0, hs⟩ i hi
          cases i with
          | zero => exact h0
          | succ j => exact hs j (by simpa using hi)
      have hzero : specLetterOk g (ch :: rest) r col .down 0 ↔
          (match g r col with
            | some cell => cell.letter = ch
            | none =>
                specCell g r (col - 1) = none ∧
                  specCell g r (col + 1) = none) := by
        unfold specLetterOk letterPos
        simp only [Nat.cast_zero, add_zero, List.getD_cons_zero, hspec0]
      unfold checkDownCells
      rw [hcell]
      cases hg : g r col with
      | some cell =>
          simp only
          rw [hsplit]
          by_cases hl : cell.letter = ch
          · rw [if_pos hl, ih (r + 1) (by omega) hlen']
            constructor
            · intro H
              refine ⟨?_, ?_⟩
              · rw [hzero, hg]
                exact hl
              · intro j hj
                rw [specLetterOk_shift_down]
                exact H j hj
            · rintro ⟨h0, hs⟩ j hj
              rw [← specLetterOk_shift_down g r col ch rest j]
              exact hs j hj
          · rw [if_neg hl]
            constructor
            · intro h; cases h
            · rintro ⟨h0, _⟩
              exfalso
              rw [hzero, hg] at h0
              exact hl h0
      | none =>
          simp only
          rw [hsplit]
          have hup : specCell g r (col - 1) =
              if 0 < col then g r (col - 1) else none := by
            unfold specCell
            by_cases h : (0 : Int) < col
            · rw [if_pos ⟨hr0, hr30, by omega, by omega⟩, if_pos h]
            · rw [if_neg (fun hcon => absurd hcon.2.2.1 (by omega)), if_neg h]
          have hdn : specCell g r (col + 1) =
              if col < GRID_SIZE - 1 then g r (col + 1) else none := by
            unfold specCell
            by_cases h : col < GRID_SIZE - 1
            · rw [if_pos ⟨hr0, hr30, by omega, by omega⟩, if_pos h]
            · rw [if_neg (fun hcon => absurd hcon.2.2.2 (by omega)), if_neg h]
          by_cases hL : col > 0 ∧ (g r (col - 1)).isSome = true
          · rw [if_pos hL]
            constructor
            · intro h; cases h
            · rintro ⟨h0, _⟩
              exfalso
              rw [hzero, hg] at h0
              rw [hup, if_pos hL.1] at h0
              rw [h0.1] at hL
              simp at hL
          · rw [if_neg hL]
            by_cases hR : col < GRID_SIZE - 1 ∧ (g r (col + 1)).isSome = true
            · rw [if_pos hR]
              constructor
              · intro h; cases h
              · rintro ⟨h0, _⟩
                exfalso
                rw [hzero, hg] at h0
                rw [hdn, if_pos hR.1] at h0
                rw [h0.2] at hR
                simp at hR
            · rw [if_neg hR, ih (r + 1) (by omega) hlen']
              have hupnone : specCell g r (col - 1) = none := by
                rw [hup]
                by_cases h : (0 : Int) < col
                · rw [if_pos h]
                  cases hgu : g r (col - 1) with
                  | none => rfl
                  | some cl => exact absurd ⟨h, by rw [hgu]; rfl⟩ hL
                · rw [if_neg h]
              have hdnnone : specCell g r (col + 1) = none := by
                rw [hdn]
                by_cases h : col < GRID_SIZE - 1
                · rw [if_pos h]
                  cases hgd : g r (col + 1) with
                  | none => rfl
                  | some cl => exact absurd ⟨h, by rw [hgd]; rfl⟩ hR
                · rw [if_neg h]
              constructor
              · intro H
                refine ⟨?_, ?_⟩
                · rw [hzero, hg]
                  exact ⟨hupnone, hdnnone⟩
                · intro j hj
                  rw [specLetterOk_shift_down]
                  exact H j hj
              · rintro ⟨h0, hs⟩ j hj
                rw [← specLetterOk_shift_down g r col ch rest j]
                exact hs j hj

/-- Claim C2 as amended: restricted to start coordinates inside the grid
(`0 ≤ row, col < N`), `canPlaceWord` returns true exactly under the claimed
conditions: the word fits, the run ends are isolated, and every position
either matches an existing letter or is empty with empty orthogonal
neighbours.  (Outside that range the cross-axis coordinate is unchecked:
a down placement at `col ≥ N` can report true, and an across query at
`row ≥ N` throws — see the counterexample.)  The model is a pure function,
reflecting that the source mutates nothing. -/
theorem c2_canplace_amended (g : Grid) (w : List Char) (row col : Int)
    (dir : Direction) (h0r : 0 ≤ row) (h1r : row < GRID_SIZE)
    (h0c : 0 ≤ col) (h1c : col < GRID_SIZE) :
    canPlaceWord g w row col dir = some true ↔ specCanPlace g w row col dir := by
  have hneg : ¬(row < 0 ∨ col < 0) := by omega
  cases dir with
  | across =>
      simp only [canPlaceWord]
      rw [if_neg hneg]
      by_cases hfit : col + (w.length : Int) > GRID_SIZE
      · rw [if_pos hfit]
        constructor
        · intro h; cases h
        · rintro ⟨⟨_, _, _, hle⟩, _, _⟩
          omega
      · rw [if_neg hfit]
        have hbefore : (if col > 0 then readEx g row (col - 1) else some none) =
            some (specCell g row (col - 1)) := by
          by_cases h : col > 0
          · rw [if_pos h]
            unfold readEx specCell
            rw [if_pos ⟨h0r, h1r⟩, if_pos ⟨h0r, h1r, by omega, by omega⟩]
          · rw [if_neg h]
            unfold specCell
            rw [if_neg (fun hcon => absurd hcon.2.2.1 (by omega))]
        have hafter : (if col + (w.length : Int) < GRID_SIZE then
              readEx g row (col + w.length) else some none) =
            some (specCell g row (col + w.length)) := by
          by_cases h : col + (w.length : Int) < GRID_SIZE
          · rw [if_pos h]
            unfold readEx specCell
            rw [if_pos ⟨h0r, h1r⟩,
              if_pos ⟨h0r, h1r, by positivity, h⟩]
          · rw [if_neg h]
            unfold specCell
            rw [if_neg (fun hcon => absurd hcon.2.2.2 (by omega))]
        rw [hbefore]
        cases hb : specCell g row (col - 1) with
        | some cellb =>
            simp only
            constructor
            · intro h; cases h
            · rintro ⟨_, ⟨hbn, _⟩, _⟩
              rw [hb] at hbn
              cases hbn
        | none =>
            simp only
            rw [hafter]
            cases ha : specCell g row (col + w.length) with
            | some cella =>
                simp only
                constructor
                · intro h; cases h
                · rintro ⟨_, ⟨_, han⟩, _⟩
                  rw [ha] at han
                  cases han
            | none =>
                simp only
                rw [checkAcrossCells_iff g row h0r h1r w col h0c (by omega)]
                unfold specCanPlace specFits specEnds
                constructor
                · intro H
                  exact ⟨⟨h0r, h0c, h1r, by omega⟩, ⟨hb, ha⟩, H⟩
                · rintro ⟨_, _, H⟩
                  exact H
  | down =>
      simp only [canPlaceWord]
      rw [if_neg hneg]
      by_cases hfit : row + (w.length : Int) > GRID_SIZE
      · rw [if_pos hfit]
        constructor
        · intro h; cases h
        · rintro ⟨⟨_, _, _, hle⟩, _, _⟩
          omega
      · rw [if_neg hfit]
        have hbefore : (if row > 0 then readEx g (row - 1) col else some none) =
            some (specCell g (row - 1) col) := by
          by_cases h : row > 0
          · rw [if_pos h]
            unfold readEx specCell
            rw [if_pos ⟨by omega, by omega⟩,
              if_pos ⟨by omega, by omega, h0c, h1c⟩]
          · rw [if_neg h]
            unfold specCell
            rw [if_neg (fun hcon => absurd hcon.1 (by omega))]
        have hafter : (if row + (w.length : Int) < GRID_SIZE then
              readEx g (row + w.length) col else some none) =
            some (specCell g (row + w.length) col) := by
          by_cases h : row + (w.length : Int) < GRID_SIZE
          · rw [if_pos h]
            unfold readEx specCell
            rw [if_pos ⟨by positivity, h⟩,
              if_pos ⟨by positivity, h, h0c, h1c⟩]
          · rw [if_neg h]
            unfold specCell
            rw [if_neg (fun hcon => absurd hcon.2.1 (by omega))]
        rw [hbefore]
        cases hb : specCell g (row - 1) col with
        | some cellb =>
            simp only
            constructor
            · intro h; cases h
            · rintro ⟨_, ⟨hbn, _⟩, _⟩
              rw [hb] at hbn
              cases hbn
        | none =>
            simp only
            rw [hafter]
            cases ha : specCell g (row + w.length) col with
            | some cella =>
                simp only
                constructor
                · intro h; cases h
                · rintro ⟨_, ⟨_, han⟩, _⟩
                  rw [ha] at han
                  cases han
            | none =>
                simp only
                rw [checkDownCells_iff g col h0c h1c w row h0r (by omega)]
                unfold specCanPlace specFits specEnds
                constructor
                · intro H
                  exact ⟨⟨h0r, h0c, h1c, by omega⟩, ⟨hb, ha⟩, H⟩
                · rintro ⟨_, _, H⟩
                  exact H

/-- Witness for the amended C2: a two-letter word placed across on the empty
grid at an interior cell is feasible both per the code and per the spec
predicate. -/
theorem c2_canplace_witness :
    canPlaceWord emptyGrid "AB".data 5 5 .across = some true :=
  (c2_canplace_amended emptyGrid "AB".data 5 5 .across (by decide) (by decide)
    (by decide) (by decide)).mpr (by decide)

/-! ## Theorems: grid-writing lemmas shared by the placement invariants -/

theorem letterPos_succ_across (r c : Int) (j : Nat) :
    letterPos r c .across (j + 1) = letterPos r (c + 1) .across j := by
  unfold letterPos
  simp only [Prod.mk.injEq, true_and]
  push_cast
  ring

theorem letterPos_succ_down (r c : Int) (j : Nat) :
    letterPos r c .down (j + 1) = letterPos (r + 1) c .down j := by
  unfold letterPos
  simp only [Prod.mk.injEq, and_true]
  push_cast
  ring

theorem letterPos_inj (r c : Int) (dir : Direction) (i j : Nat)
    (h : letterPos r c dir i = letterPos r c dir j) : i = j := by
  cases dir with
  | across =>
      unfold letterPos at h
      have := (Prod.mk.injEq _ _ _ _ ▸ h : _ ∧ _).2
      omega
  | down =>
      unfold letterPos at h
      have := (Prod.mk.injEq _ _ _ _ ▸ h : _ ∧ _).1
      omega

theorem letterPos_zero (r c : Int) (dir : Direction) :
    letterPos r c dir 0 = (r, c) := by
  cases dir with
  | across => unfold letterPos; simp
  | down => unfold letterPos; simp

theorem writeWordCells_off (dir : Direction) (n : Nat) :
    ∀ (w : List Char) (g : Grid) (r c : Int) (i : Nat) (p : Int × Int),
      (∀ j, j < w.length → p ≠ letterPos r c dir j) →
      writeWordCells dir n g w r c i p.1 p.2 = g p.1 p.2 := by
  intro w
  induction w with
  | nil => intro g r c i p _; rfl
  | cons ch rest ih =>
      intro g r c i p hp
      have hp0 : p ≠ (r, c) := by
        have := hp 0 (Nat.succ_pos _)
        rwa [letterPos_zero] at this
      cases dir with
      | across =>
          show writeWordCells .across n
              (updateGrid g r c (writtenCell (g r c) ch .across n i)) rest
              r (c + 1) (i + 1) p.1 p.2 = g p.1 p.2
          rw [ih _ r (c + 1) (i + 1) p ?hrest]
          case hrest =>
            intro j hj
            rw [← letterPos_succ_across]
            exact hp (j + 1) (by simpa using hj)
          unfold updateGrid
          rw [if_neg (fun hc => hp0 (Prod.ext hc.1 hc.2))]
      | down =>
          show writeWordCells .down n
              (updateGrid g r c (writtenCell (g r c) ch .down n i)) rest
              (r + 1) c (i + 1) p.1 p.2 = g p.1 p.2
          rw [ih _ (r + 1) c (i + 1) p ?hrest]
          case hrest =>
            intro j hj
            rw [← letterPos_succ_down]
            exact hp (j + 1) (by simpa using hj)
          unfold updateGrid
          rw [if_neg (fun hc => hp0 (Prod.ext hc.1 hc.2))]

theorem writeWordCells_at (dir : Direction) (n : Nat) :
    ∀ (w : List Char) (g : Grid) (r c : Int) (i : Nat) (j : Nat),
      j < w.length →
      writeWordCells dir n g w r c i (letterPos r c dir j).1
          (letterPos r c dir j).2 =
        some (writtenCell (g (letterPos r c dir j).1 (letterPos r c dir j).2)
          (w.getD j 'A') dir n (i + j)) := by
  intro w
  induction w with
  | nil => intro g r c i j hj; cases hj
  | cons ch rest ih =>
      intro g r c i j hj
      have hnext : writeWordCells dir n g (ch :: rest) r c i =
          writeWordCells dir n
            (updateGrid g r c (writtenCell (g r c) ch dir n i)) rest
            (letterPos r c dir 1).1 (letterPos r c dir 1).2 (i + 1) := by
        cases dir with
        | across => rfl
        | down => rfl
      have hshift : ∀ j' : Nat, letterPos r c dir (j' + 1) =
          letterPos (letterPos r c dir 1).1 (letterPos r c dir 1).2 dir j' := by
        intro j'
        cases dir with
        | across =>
            rw [letterPos_succ_across]
            rfl
        | down =>
            rw [letterPos_succ_down]
            rfl
      cases j with
      | zero =>
          rw [hnext]
          rw [writeWordCells_off dir n rest _ _ _ _ _ ?hoff]
          case hoff =>
            intro j' hj' heq
            have h1 : letterPos r c dir 0 = letterPos r c dir (j' + 1) := by
              rw [hshift j']
              exact heq
            exact Nat.succ_ne_zero j' (letterPos_inj r c dir 0 (j' + 1) h1).symm
          rw [letterPos_zero]
          unfold updateGrid
          rw [if_pos ⟨rfl, rfl⟩]
          simp [List.getD_cons_zero]
      | succ j' =>
          rw [hnext]
          have hj'lt : j' < rest.length := by simpa using hj
          have hres := ih (updateGrid g r c (writtenCell (g r c) ch dir n i))
            (letterPos r c dir 1).1 (letterPos r c dir 1).2 (i + 1) j' hj'lt
          rw [hshift j', hres]
          have hgeq : updateGrid g r c (writtenCell (g r c) ch dir n i)
              (letterPos (letterPos r c dir 1).1 (letterPos r c dir 1).2 dir j').1
              (letterPos (letterPos r c dir 1).1 (letterPos r c dir 1).2 dir j').2 =
              g (letterPos (letterPos r c dir 1).1 (letterPos r c dir 1).2 dir j').1
                (letterPos (letterPos r c dir 1).1 (letterPos r c dir 1).2 dir j').2 := by
            unfold updateGrid
            rw [if_neg]
            intro hc
            have h1 : letterPos r c dir (j' + 1) = (r, c) := by
              rw [hshift j']
              exact Prod.ext hc.1 hc.2
            rw [← letterPos_zero r c dir] at h1
            exact Nat.succ_ne_zero j' (letterPos_inj r c dir (j' + 1) 0 h1)
          rw [hgeq, List.getD_cons_succ]
          have harith : i + 1 + j' = i + (j' + 1) := by omega
          rw [harith]

theorem writtenCell_letter (old : Option Cell) (ch : Char) (dir : Direction)
    (n i : Nat) :
    (writtenCell old ch dir n i).letter =
      match old with
      | none => ch
      | some cl => cl.letter := by
  unfold writtenCell
  cases old <;> cases dir <;> by_cases h : i = 0 <;> simp [h]

theorem writtenCell_clueNumber (old : Option Cell) (ch : Char)
    (dir : Direction) (n i : Nat) :
    (writtenCell old ch dir n i).clueNumber =
      if i = 0 then some n
      else
        match old with
        | none => none
        | some cl => cl.clueNumber := by
  unfold writtenCell
  cases old <;> cases dir <;> by_cases h : i = 0 <;> simp [h]

theorem writeWordCells_letters_mono (dir : Direction) (n : Nat) :
    ∀ (w : List Char) (g : Grid) (r c : Int) (i : Nat) (r' c' : Int)
      (cl : Cell), g r' c' = some cl →
      ∃ cl', writeWordCells dir n g w r c i r' c' = some cl' ∧
        cl'.letter = cl.letter := by
  intro w
  induction w with
  | nil =>
      intro g r c i r' c' cl h
      exact ⟨cl, h, rfl⟩
  | cons ch rest ih =>
      intro g r c i r' c' cl h
      have hnext : ∀ p1 p2 : Int,
          writeWordCells dir n g (ch :: rest) r c i p1 p2 =
          writeWordCells dir n
            (updateGrid g r c (writtenCell (g r c) ch dir n i)) rest
            (letterPos r c dir 1).1 (letterPos r c dir 1).2 (i + 1) p1 p2 := by
        intro p1 p2
        cases dir with
        | across => rfl
        | down => rfl
      rw [hnext r' c']
      by_cases hp : r' = r ∧ c' = c
      · obtain ⟨h1, h2⟩ := hp
        subst h1; subst h2
        have hup : updateGrid g r' c' (writtenCell (g r' c') ch dir n i) r' c' =
            some (writtenCell (g r' c') ch dir n i) := by
          unfold updateGrid
          rw [if_pos ⟨rfl, rfl⟩]
        obtain ⟨cl', hcl', hlet⟩ := ih
          (updateGrid g r' c' (writtenCell (g r' c') ch dir n i))
          (letterPos r' c' dir 1).1 (letterPos r' c' dir 1).2 (i + 1) r' c'
          (writtenCell (g r' c') ch dir n i) hup
        refine ⟨cl', hcl', ?_⟩
        rw [hlet, writtenCell_letter, h]
      · have hup : updateGrid g r c (writtenCell (g r c) ch dir n i) r' c' =
            some cl := by
          unfold updateGrid
          rw [if_neg hp]
          exact h
        exact ih _ _ _ (i + 1) r' c' cl hup

theorem readCells_iff (g : Grid) (dir : Direction) :
    ∀ (w : List Char) (r c : Int),
      readCells g dir r c w.length = some w ↔
        ∀ j, j < w.length →
          ∃ cell, g (letterPos r c dir j).1 (letterPos r c dir j).2 = some cell ∧
            cell.letter = w.getD j 'A' := by
  intro w
  induction w with
  | nil =>
      intro r c
      exact ⟨fun _ j hj => absurd hj (Nat.not_lt_zero j),
        fun _ => rfl⟩
  | cons ch rest ih =>
      intro r c
      have hpos0 : letterPos r c dir 0 = (r, c) := letterPos_zero r c dir
      have hnext : ∀ j' : Nat, letterPos r c dir (j' + 1) =
          letterPos (letterPos r c dir 1).1 (letterPos r c dir 1).2 dir j' := by
        intro j'
        cases dir with
        | across => rw [letterPos_succ_across]; rfl
        | down => rw [letterPos_succ_down]; rfl
      have hread : readCells g dir r c (ch :: rest).length =
          match g r c with
          | some cell =>
              (readCells g dir (letterPos r c dir 1).1
                (letterPos r c dir 1).2 rest.length).map (cell.letter :: ·)
          | none => none := by
        cases dir with
        | across => rfl
        | down => rfl
      rw [hread]
      cases hg : g r c with
      | none =>
          constructor
          · intro h; cases h
          · intro H
            obtain ⟨cell, hcell, _⟩ := H 0 (Nat.succ_pos _)
            rw [hpos0] at hcell
            rw [hg] at hcell
            cases hcell
      | some cell =>
          simp only
          constructor
          · intro h
            obtain ⟨tl, htl, hcons⟩ := Option.map_eq_some'.mp h
            have hch : cell.letter = ch := (List.cons.injEq _ _ _ _ ▸ hcons).1
            have htail : tl = rest := (List.cons.injEq _ _ _ _ ▸ hcons).2
            subst htail
            intro j hj
            cases j with
            | zero =>
                refine ⟨cell, ?_, ?_⟩
                · rw [hpos0]; exact hg
                · rw [List.getD_cons_zero]; exact hch
            | succ j' =>
                have := (ih (letterPos r c dir 1).1 (letterPos r c dir 1).2).mp htl
                  j' (by simpa using hj)
                rw [← hnext j'] at this
                rw [List.getD_cons_succ]
                exact this
          · intro H
            have h0 := H 0 (Nat.succ_pos _)
            rw [hpos0, hg, List.getD_cons_zero] at h0
            obtain ⟨cell0, hc0, hl0⟩ := h0
            have hcell0 : cell0 = cell := by
              cases hc0; rfl
            subst hcell0
            have htl : readCells g dir (letterPos r c dir 1).1
                (letterPos r c dir 1).2 rest.length = some rest := by
              rw [ih]
              intro j hj
              have := H (j + 1) (by simpa using hj)
              rw [hnext j] at this
              rw [List.getD_cons_succ] at this
              exact this
            rw [htl]
            simp [hl0]

theorem readEx_some (g : Grid) (r c : Int) (v : Option Cell)
    (h : readEx g r c = some v) : g r c = v := by
  unfold readEx at h
  by_cases hb : 0 ≤ r ∧ r < GRID_SIZE
  · rw [if_pos hb] at h
    exact Option.some.inj h
  · rw [if_neg hb] at h
    cases h

theorem checkAcrossCells_compat (g : Grid) (row : Int) :
    ∀ (w : List Char) (c : Int), checkAcrossCells g row w c = some true →
      LettersCompat g w row c .across := by
  intro w
  induction w with
  | nil =>
      intro c _ j hj
      cases hj
  | cons ch rest ih =>
      intro c h j hj
      unfold checkAcrossCells at h
      cases hre : readEx g row c with
      | none => rw [hre] at h; cases h
      | some ob =>
          rw [hre] at h
          have hgc := readEx_some g row c ob hre
          cases ob with
          | some cell =>
              simp only at h
              by_cases hl : cell.letter = ch
              · rw [if_pos hl] at h
                cases j with
                | zero =>
                    right
                    rw [letterPos_zero]
                    exact ⟨cell, hgc, by rw [List.getD_cons_zero]; exact hl⟩
                | succ j' =>
                    have := ih (c + 1) h j' (by simpa using hj)
                    rw [← letterPos_succ_across] at this
                    rw [List.getD_cons_succ]
                    exact this
              · rw [if_neg hl] at h
                cases h
          | none =>
              simp only at h
              by_cases hL : row > 0 ∧ (g (row - 1) c).isSome = true
              · rw [if_pos hL] at h; cases h
              · rw [if_neg hL] at h
                by_cases hR : row < GRID_SIZE - 1 ∧ (g (row + 1) c).isSome = true
                · rw [if_pos hR] at h; cases h
                · rw [if_neg hR] at h
                  cases j with
                  | zero =>
                      left
                      rw [letterPos_zero]
                      exact hgc
                  | succ j' =>
                      have := ih (c + 1) h j' (by simpa using hj)
                      rw [← letterPos_succ_across] at this
                      rw [List.getD_cons_succ]
                      exact this

theorem checkDownCells_compat (g : Grid) (col : Int) :
    ∀ (w : List Char) (r : Int), checkDownCells g col w r = some true →
      LettersCompat g w r col .down := by
  intro w
  induction w with
  | nil =>
      intro r _ j hj
      cases hj
  | cons ch rest ih =>
      intro r h j hj
      unfold checkDownCells at h
      cases hre : readEx g r col with
      | none => rw [hre] at h; cases h
      | some ob =>
          rw [hre] at h
          have hgc := readEx_some g r col ob hre
          cases ob with
          | some cell =>
              simp only at h
              by_cases hl : cell.letter = ch
              · rw [if_pos hl] at h
                cases j with
                | zero =>
                    right
                    rw [letterPos_zero]
                    exact ⟨cell, hgc, by rw [List.getD_cons_zero]; exact hl⟩
                | succ j' =>
                    have := ih (r + 1) h j' (by simpa using hj)
                    rw [← letterPos_succ_down] at this
                    rw [List.getD_cons_succ]
                    exact this
              · rw [if_neg hl] at h
                cases h
          | none =>
              simp only at h
              by_cases hL : col > 0 ∧ (g r (col - 1)).isSome = true
              · rw [if_pos hL] at h; cases h
              · rw [if_neg hL] at h
                by_cases hR : col < GRID_SIZE - 1 ∧ (g r (col + 1)).isSome = true
                · rw [if_pos hR] at h; cases h
                · rw [if_neg hR] at h
                  cases j with
                  | zero =>
                      left
                      rw [letterPos_zero]
                      exact hgc
                  | succ j' =>
                      have := ih (r + 1) h j' (by simpa using hj)
                      rw [← letterPos_succ_down] at this
                      rw [List.getD_cons_succ]
                      exact this

theorem canPlace_compat (g : Grid) (w : List Char) (row col : Int)
    (dir : Direction) (h : canPlaceWord g w row col dir = some true) :
    LettersCompat g w row col dir := by
  cases dir with
  | across =>
      simp only [canPlaceWord] at h
      by_cases h1 : row < 0 ∨ col < 0
      · rw [if_pos h1] at h; cases h
      · rw [if_neg h1] at h
        by_cases h2 : col + (w.length : Int) > GRID_SIZE
        · rw [if_pos h2] at h; cases h
        · rw [if_neg h2] at h
          cases hb : (if col > 0 then readEx g row (col - 1) else some none) with
          | none => rw [hb] at h; cases h
          | some ob =>
              rw [hb] at h
              cases ob with
              | some cellb => simp only at h; cases h
              | none =>
                  simp only at h
                  cases ha : (if col + (w.length : Int) < GRID_SIZE then
                      readEx g row (col + w.length) else some none) with
                  | none => rw [ha] at h; cases h
                  | some oa =>
                      rw [ha] at h
                      cases oa with
                      | some cella => simp only at h; cases h
                      | none =>
                          simp only at h
                          exact checkAcrossCells_compat g row w col h
  | down =>
      simp only [canPlaceWord] at h
      by_cases h1 : row < 0 ∨ col < 0
      · rw [if_pos h1] at h; cases h
      · rw [if_neg h1] at h
        by_cases h2 : row + (w.length : Int) > GRID_SIZE
        · rw [if_pos h2] at h; cases h
        · rw [if_neg h2] at h
          cases hb : (if row > 0 then readEx g (row - 1) col else some none) with
          | none => rw [hb] at h; cases h
          | some ob =>
              rw [hb] at h
              cases ob with
              | some cellb => simp only at h; cases h
              | none =>
                  simp only at h
                  cases ha : (if row + (w.length : Int) < GRID_SIZE then
                      readEx g (row + w.length) col else some none) with
                  | none => rw [ha] at h; cases h
                  | some oa =>
                      rw [ha] at h
                      cases oa with
                      | some cella => simp only at h; cases h
                      | none =>
                          simp only at h
                          exact checkDownCells_compat g col w row h

theorem foldl_bestStep_inv (g : Grid) (w : List Char) :
    ∀ (cands : List Fit) (acc : Option Fit × Nat),
      (∀ f, acc.1 = some f →
        canPlaceWord g w f.row f.col f.direction = some true) →
      ∀ f, (cands.foldl (bestStep g w) acc).1 = some f →
        canPlaceWord g w f.row f.col f.direction = some true := by
  intro cands
  induction cands with
  | nil => intro acc hacc f hf; exact hacc f hf
  | cons cand rest ih =>
      intro acc hacc f hf
      rw [List.foldl_cons] at hf
      refine ih (bestStep g w acc cand) ?_ f hf
      intro f' hf'
      unfold bestStep at hf'
      by_cases hcan : canPlaceWord g w cand.row cand.col cand.direction = some true
      · rw [if_pos hcan] at hf'
        by_cases hlt : acc.2 < countIntersections g w cand.row cand.col cand.direction
        · simp only [if_pos hlt] at hf'
          have : cand = f' := Option.some.inj hf'
          rw [← this]
          exact hcan
        · simp only [if_neg hlt] at hf'
          exact hacc f' hf'
      · rw [if_neg hcan] at hf'
        exact hacc f' hf'

theorem findBestFit_canPlace (g : Grid) (w : List Char) (placed : List Placed)
    (fit : Fit) (h : findBestFit g w placed = some fit) :
    canPlaceWord g w fit.row fit.col fit.direction = some true := by
  unfold findBestFit at h
  dsimp only at h
  cases hf : ((candidateList w placed).foldl (bestStep g w) (none, 0)).1 with
  | none => rw [hf] at h; cases h
  | some f =>
      rw [hf] at h
      simp only at h
      by_cases hpos : 0 < ((candidateList w placed).foldl (bestStep g w) (none, 0)).2
      · rw [if_pos hpos] at h
        have hfit : f = fit := Option.some.inj h
        rw [← hfit]
        exact foldl_bestStep_inv g w (candidateList w placed) (none, 0)
          (fun f' hf' => by cases hf') f hf
      · rw [if_neg hpos] at h
        cases h

theorem commitWord_fields (st : BuildState) (wordObj : Entry) (row col : Int)
    (dir : Direction) :
    ∃ n, (commitWord st wordObj row col dir).grid =
        writeWordCells dir n st.grid wordObj.word.data row col 0 ∧
      (commitWord st wordObj row col dir).placedWords =
        st.placedWords ++
          [{ word := wordObj.word, clue := wordObj.clue, row := row,
             col := col, direction := dir }] := by
  unfold commitWord placeWordOnGrid
  cases hl : lookupPos st.numberLocations (row, col) with
  | some n =>
      refine ⟨n, ?_, ?_⟩
      · dsimp only
        rw [hl]
      · rfl
  | none =>
      refine ⟨st.clueCounter, ?_, ?_⟩
      · dsimp only
        rw [hl]
      · rfl

theorem writeWordCells_readback (g : Grid) (w : List Char) (row col : Int)
    (dir : Direction) (n : Nat) (hcompat : LettersCompat g w row col dir) :
    readCells (writeWordCells dir n g w row col 0) dir row col w.length =
      some w := by
  rw [readCells_iff]
  intro j hj
  have hat := writeWordCells_at dir n w g row col 0 j hj
  refine ⟨_, hat, ?_⟩
  rw [writtenCell_letter]
  rcases hcompat j hj with hnone | ⟨cl, hsome, hlet⟩
  · rw [hnone]
  · rw [hsome]
    exact hlet

theorem readWord_mono (g g' : Grid)
    (hmono : ∀ r c cl, g r c = some cl →
      ∃ cl', g' r c = some cl' ∧ cl'.letter = cl.letter)
    (pw : Placed) (h : readWord g pw = some pw.word.data) :
    readWord g' pw = some pw.word.data := by
  unfold readWord at *
  rw [readCells_iff] at h
  rw [readCells_iff]
  intro j hj
  obtain ⟨cell, hc, hl⟩ := h j hj
  obtain ⟨cl', hc', hl'⟩ := hmono _ _ _ hc
  exact ⟨cl', hc', by rw [hl', hl]⟩

theorem commitWord_roundInv (st : BuildState) (wordObj : Entry)
    (row col : Int) (dir : Direction)
    (hcompat : LettersCompat st.grid wordObj.word.data row col dir)
    (hinv : RoundInv st) : RoundInv (commitWord st wordObj row col dir) := by
  obtain ⟨n, hgrid, hplaced⟩ := commitWord_fields st wordObj row col dir
  intro pw hpw
  rw [hplaced] at hpw
  rcases List.mem_append.mp hpw with hold | hnew
  · rw [hgrid]
    exact readWord_mono st.grid _
      (fun r c cl hc =>
        writeWordCells_letters_mono dir n wordObj.word.data st.grid row col 0
          r c cl hc)
      pw (hinv pw hold)
  · have hpw' : pw = ⟨wordObj.word, wordObj.clue, row, col, dir⟩ :=
      List.mem_singleton.mp hnew
    rw [hgrid, hpw']
    unfold readWord
    exact writeWordCells_readback st.grid wordObj.word.data row col dir n
      hcompat

theorem tryIndex_roundInv (st : BuildState) (i : Nat) (st' : BuildState)
    (h : tryIndex st i = some st') (hinv : RoundInv st) : RoundInv st' := by
  unfold tryIndex at h
  cases hg : st.words.get? i with
  | none => rw [hg] at h; cases h
  | some wordObj =>
      rw [hg] at h
      dsimp only at h
      cases hf : findBestFit st.grid wordObj.word.data st.placedWords with
      | none => rw [hf] at h; cases h
      | some fit =>
          rw [hf] at h
          dsimp only at h
          cases h
          have hcan := findBestFit_canPlace st.grid wordObj.word.data
            st.placedWords fit hf
          have hcompat := canPlace_compat st.grid wordObj.word.data fit.row
            fit.col fit.direction hcan
          have hcommit := commitWord_roundInv st wordObj fit.row fit.col
            fit.direction hcompat hinv
          intro pw hpw
          exact hcommit pw hpw

theorem scanDown_roundInv (st : BuildState) :
    ∀ (k : Nat) (st' : BuildState), scanDown st k = some st' →
      RoundInv st → RoundInv st' := by
  intro k
  induction k with
  | zero => intro st' h; cases h
  | succ i ih =>
      intro st' h hinv
      unfold scanDown at h
      cases ht : tryIndex st i with
      | some st'' =>
          rw [ht] at h
          cases h
          exact tryIndex_roundInv st i st' ht hinv
      | none =>
          rw [ht] at h
          exact ih st' h hinv

theorem loopStep_roundInv (st : BuildState) (hinv : RoundInv st) :
    RoundInv (loopStep st) := by
  unfold loopStep
  cases hs : scanDown st st.words.length with
  | some st' => exact scanDown_roundInv st _ st' hs hinv
  | none =>
      intro pw hpw
      exact hinv pw hpw

theorem loopRun_preserves (Inv : BuildState → Prop)
    (hstep : ∀ st, Inv st → Inv (loopStep st)) :
    ∀ (fuel : Nat) (st st' : BuildState), loopRun fuel st = some st' →
      Inv st → Inv st' := by
  intro fuel
  induction fuel with
  | zero =>
      intro st st' h hinv
      unfold loopRun at h
      by_cases hc : loopCond st = true
      · rw [if_pos hc] at h; cases h
      · rw [if_neg hc] at h
        cases h
        exact hinv
  | succ f ih =>
      intro st st' h hinv
      unfold loopRun at h
      by_cases hc : loopCond st = true
      · rw [if_pos hc] at h
        exact ih (loopStep st) st' h (hstep st hinv)
      · rw [if_neg hc] at h
        cases h
        exact hinv

theorem stateAfterFirst_roundInv (first : Entry) (rest : List Entry) :
    RoundInv (stateAfterFirst first rest) := by
  unfold stateAfterFirst
  apply commitWord_roundInv
  · intro j hj
    left
    rfl
  · intro pw hpw
    cases hpw

/-- Claim C4 (confirmed): in every produced puzzle, reading the grid from
each placed word's start along its direction for its length reproduces
exactly that word's letters; in particular two placed words sharing a grid
cell have identical letters there. -/
theorem c4_roundtrip (entries : List Entry) (res : GenResult)
    (h : generatePuzzle entries = Except.ok res) :
    (∀ pw ∈ res.placedWords, readWord res.grid pw = some pw.word.data) ∧
    (∀ pw1 ∈ res.placedWords, ∀ pw2 ∈ res.placedWords, ∀ i j : Nat,
      i < pw1.word.data.length → j < pw2.word.data.length →
      letterPos pw1.row pw1.col pw1.direction i =
        letterPos pw2.row pw2.col pw2.direction j →
      pw1.word.data.getD i 'A' = pw2.word.data.getD j 'A') := by
  have hmain : ∀ pw ∈ res.placedWords, readWord res.grid pw = some pw.word.data := by
    unfold generatePuzzle at h
    by_cases hlen : (sortWordsDesc (normalizeWords entries)).length < 2
    · rw [if_pos hlen] at h; cases h
    · rw [if_neg hlen] at h
      cases hws : sortWordsDesc (normalizeWords entries) with
      | nil => rw [hws] at hlen; simp at hlen
      | cons first rest =>
          rw [hws] at h
          dsimp only at h
          cases hrun : loopRun (rest.length * rest.length)
              (stateAfterFirst first rest) with
          | none => rw [hrun] at h; cases h
          | some st =>
              rw [hrun] at h
              dsimp only at h
              have hres := Except.ok.inj h
              have hinv : RoundInv st :=
                loopRun_preserves RoundInv loopStep_roundInv
                  (rest.length * rest.length) (stateAfterFirst first rest) st
                  hrun (stateAfterFirst_roundInv first rest)
              rw [← hres]
              intro pw hpw
              exact hinv pw hpw
  refine ⟨hmain, ?_⟩
  intro pw1 h1 pw2 h2 i j hi hj hpos
  have r1 := hmain pw1 h1
  have r2 := hmain pw2 h2
  unfold readWord at r1 r2
  rw [readCells_iff] at r1 r2
  obtain ⟨cell1, hc1, hl1⟩ := r1 i hi
  obtain ⟨cell2, hc2, hl2⟩ := r2 j hj
  rw [hpos] at hc1
  rw [hc2] at hc1
  have : cell2 = cell1 := Option.some.inj hc1
  rw [← hl1, ← hl2, this]

/-- Witness for C4 at a concrete two-word input: the produced puzzle's
placed words all read back from the grid. -/
theorem c4_roundtrip_witness :
    ∃ res, generatePuzzle [⟨"AB", "c1"⟩, ⟨"BA", "c2"⟩] = Except.ok res ∧
      ∀ pw ∈ res.placedWords, readWord res.grid pw = some pw.word.data := by
  refine ⟨_, rfl, ?_⟩
  exact (c4_roundtrip [⟨"AB", "c1"⟩, ⟨"BA", "c2"⟩] _ rfl).1

/-! ## Theorems: clue numbering (C5) -/

theorem getLast?_mem_of_eq_some {α : Type} :
    ∀ (l : List α) (a : α), l.getLast? = some a → a ∈ l := by
  intro l
  induction l with
  | nil => intro a h; cases h
  | cons x xs ih =>
      intro a h
      cases xs with
      | nil =>
          have : x = a := Option.some.inj h
          rw [this]
          exact List.mem_singleton.mpr rfl
      | cons y ys =>
          rw [List.getLast?_cons_cons] at h
          exact List.mem_cons_of_mem x (ih a h)

theorem lookupPos_none (m : List ((Int × Int) × Nat)) (p : Int × Int)
    (h : lookupPos m p = none) : ∀ n, (p, n) ∉ m := by
  intro n hmem
  unfold lookupPos at h
  cases hf : m.find? (fun pr => pr.1 = p) with
  | some pr => rw [hf] at h; cases h
  | none =>
      have := List.find?_eq_none.mp hf (p, n) hmem
      simp at this

theorem lookupPos_some_mem (m : List ((Int × Int) × Nat)) (p : Int × Int)
    (n : Nat) (h : lookupPos m p = some n) : (p, n) ∈ m := by
  unfold lookupPos at h
  cases hf : m.find? (fun pr => pr.1 = p) with
  | none => rw [hf] at h; cases h
  | some pr =>
      rw [hf] at h
      have hmem := List.mem_of_find?_eq_some hf
      have hkey0 := List.find?_some hf
      have hkey : pr.1 = p := of_decide_eq_true hkey0
      have hval : pr.2 = n := Option.some.inj h
      have : pr = (p, n) := Prod.ext hkey hval
      rw [← this]
      exact hmem

theorem keys_nodup_val_eq (m : List ((Int × Int) × Nat))
    (hnd : (m.map Prod.fst).Nodup) (p : Int × Int) (n1 n2 : Nat)
    (h1 : (p, n1) ∈ m) (h2 : (p, n2) ∈ m) : n1 = n2 := by
  by_contra hne
  have hpair : ((p, n1) : (Int × Int) × Nat) ≠ (p, n2) := by
    intro h
    exact hne (congrArg Prod.snd h)
  have hpw : m.Pairwise (fun a b => a.1 ≠ b.1) := by
    rw [← List.pairwise_map]
    exact hnd
  have hsym : Symmetric (fun (a b : (Int × Int) × Nat) => a.1 ≠ b.1) :=
    fun a b h heq => h heq.symm
  have := hpw.forall hsym h1 h2 hpair
  exact this rfl

theorem vals_nodup_key_eq (m : List ((Int × Int) × Nat))
    (hnd : (m.map Prod.snd).Nodup) (p1 p2 : Int × Int) (n : Nat)
    (h1 : (p1, n) ∈ m) (h2 : (p2, n) ∈ m) : p1 = p2 := by
  by_contra hne
  have hpair : ((p1, n) : (Int × Int) × Nat) ≠ (p2, n) := by
    intro h
    exact hne (congrArg Prod.fst h)
  have hpw : m.Pairwise (fun a b => a.2 ≠ b.2) := by
    rw [← List.pairwise_map]
    exact hnd
  have hsym : Symmetric (fun (a b : (Int × Int) × Nat) => a.2 ≠ b.2) :=
    fun a b h heq => h heq.symm
  have := hpw.forall hsym h1 h2 hpair
  exact this rfl

theorem commitWord_fields_reuse (st : BuildState) (wordObj : Entry)
    (row col : Int) (dir : Direction) (n : Nat)
    (hl : lookupPos st.numberLocations (row, col) = some n) :
    (commitWord st wordObj row col dir).grid =
        writeWordCells dir n st.grid wordObj.word.data row col 0 ∧
    (commitWord st wordObj row col dir).numberLocations =
        st.numberLocations ∧
    (commitWord st wordObj row col dir).clueCounter = st.clueCounter ∧
    (commitWord st wordObj row col dir).cluesAcross =
        (match dir with
          | .across => st.cluesAcross ++ [⟨n, wordObj.clue⟩]
          | .down => st.cluesAcross) ∧
    (commitWord st wordObj row col dir).cluesDown =
        (match dir with
          | .across => st.cluesDown
          | .down => st.cluesDown ++ [⟨n, wordObj.clue⟩]) ∧
    (commitWord st wordObj row col dir).placedWords =
        st.placedWords ++ [⟨wordObj.word, wordObj.clue, row, col, dir⟩] ∧
    (commitWord st wordObj row col dir).words = st.words := by
  unfold commitWord placeWordOnGrid
  refine ⟨?_, ?_, ?_, ?_, ?_, ?_, ?_⟩ <;>
    first
      | rfl
      | (dsimp only; rw [hl])

theorem commitWord_fields_fresh (st : BuildState) (wordObj : Entry)
    (row col : Int) (dir : Direction)
    (hl : lookupPos st.numberLocations (row, col) = none) :
    (commitWord st wordObj row col dir).grid =
        writeWordCells dir st.clueCounter st.grid wordObj.word.data row col 0 ∧
    (commitWord st wordObj row col dir).numberLocations =
        st.numberLocations ++ [((row, col), st.clueCounter)] ∧
    (commitWord st wordObj row col dir).clueCounter = st.clueCounter + 1 ∧
    (commitWord st wordObj row col dir).cluesAcross =
        (match dir with
          | .across => st.cluesAcross ++ [⟨st.clueCounter, wordObj.clue⟩]
          | .down => st.cluesAcross) ∧
    (commitWord st wordObj row col dir).cluesDown =
        (match dir with
          | .across => st.cluesDown
          | .down => st.cluesDown ++ [⟨st.clueCounter, wordObj.clue⟩]) ∧
    (commitWord st wordObj row col dir).placedWords =
        st.placedWords ++ [⟨wordObj.word, wordObj.clue, row, col, dir⟩] ∧
    (commitWord st wordObj row col dir).words = st.words := by
  unfold commitWord placeWordOnGrid
  refine ⟨?_, ?_, ?_, ?_, ?_, ?_, ?_⟩ <;>
    first
      | rfl
      | (dsimp only; rw [hl])

theorem writeGrid_start_clueNumber (g : Grid) (w : List Char) (row col : Int)
    (dir : Direction) (n : Nat) (hw : 0 < w.length) :
    ∃ cell, writeWordCells dir n g w row col 0 row col = some cell ∧
      cell.clueNumber = some n := by
  have hat := writeWordCells_at dir n w g row col 0 0 hw
  rw [letterPos_zero] at hat
  refine ⟨_, hat, ?_⟩
  rw [writtenCell_clueNumber]
  rfl

theorem writeGrid_nonstart_clueNumber (g : Grid) (w : List Char)
    (row col : Int) (dir : Direction) (n : Nat) (j : Nat)
    (hj : j < w.length) (hj0 : j ≠ 0) :
    ∃ cell, writeWordCells dir n g w row col 0
        (letterPos row col dir j).1 (letterPos row col dir j).2 = some cell ∧
      (∀ cl, g (letterPos row col dir j).1 (letterPos row col dir j).2 =
          some cl → cell.clueNumber = cl.clueNumber) ∧
      (g (letterPos row col dir j).1 (letterPos row col dir j).2 = none →
        cell.clueNumber = none) := by
  have hat := writeWordCells_at dir n w g row col 0 j hj
  refine ⟨_, hat, ?_, ?_⟩
  · intro cl hcl
    rw [writtenCell_clueNumber, if_neg (by omega : ¬ 0 + j = 0), hcl]
  · intro hnone
    rw [writtenCell_clueNumber, if_neg (by omega : ¬ 0 + j = 0), hnone]

theorem numInv_d_preserved (g : Grid) (w : List Char) (row col : Int)
    (dir : Direction) (n : Nat)
    (m m' : List ((Int × Int) × Nat)) (hw : w.length ≠ 0)
    (hmem : ∀ (p : Int × Int) (n' : Nat), (p, n') ∈ m' ↔
      ((p, n') ∈ m ∨ (p = (row, col) ∧ n' = n)))
    (hstart_uniq : ∀ n', ((row, col), n') ∈ m → n' = n)
    (hd : ∀ (p : Int × Int) (n' : Nat), (p, n') ∈ m ↔
      ∃ cell, g p.1 p.2 = some cell ∧ cell.clueNumber = some n') :
    ∀ (p : Int × Int) (n' : Nat), (p, n') ∈ m' ↔
      ∃ cell, writeWordCells dir n g w row col 0 p.1 p.2 = some cell ∧
        cell.clueNumber = some n' := by
  intro p n'
  rw [hmem]
  by_cases h0 : p = (row, col)
  · rw [h0]
    dsimp only
    obtain ⟨cell0, hcell0, hnum0⟩ :=
      writeGrid_start_clueNumber g w row col dir n (by omega)
    constructor
    · rintro (hin | ⟨_, hn⟩)
      · have hn := hstart_uniq n' hin
        subst hn
        exact ⟨cell0, hcell0, hnum0⟩
      · subst hn
        exact ⟨cell0, hcell0, hnum0⟩
    · rintro ⟨cell, hcell, hnum⟩
      right
      refine ⟨rfl, ?_⟩
      rw [hcell0] at hcell
      have hceq : cell0 = cell := Option.some.inj hcell
      rw [← hceq, hnum0] at hnum
      exact (Option.some.inj hnum).symm
  · by_cases hon : ∃ j, j < w.length ∧ p = letterPos row col dir j
    · obtain ⟨j, hj, hpj⟩ := hon
      have hj0 : j ≠ 0 := by
        intro hz
        subst hz
        rw [letterPos_zero] at hpj
        exact h0 hpj
      obtain ⟨cellj, hcellj, hkeep, hfresh⟩ :=
        writeGrid_nonstart_clueNumber g w row col dir n j hj hj0
      rw [← hpj] at hcellj
      have hnotstart : ¬(p = (row, col) ∧ n' = n) := fun hc => h0 hc.1
      constructor
      · rintro (hin | hc)
        · obtain ⟨cl, hcl, hnumcl⟩ := (hd p n').mp hin
          refine ⟨cellj, hcellj, ?_⟩
          rw [hkeep cl (hpj ▸ hcl)]
          exact hnumcl
        · exact absurd hc hnotstart
      · rintro ⟨cell, hcell, hnum⟩
        left
        rw [hcellj] at hcell
        have hceq : cellj = cell := Option.some.inj hcell
        subst hceq
        rw [hd p n']
        cases hgp : g p.1 p.2 with
        | none =>
            exfalso
            have := hfresh (hpj ▸ hgp)
            rw [this] at hnum
            cases hnum
        | some cl =>
            refine ⟨cl, rfl, ?_⟩
            rw [← hkeep cl (hpj ▸ hgp)]
            exact hnum
    · push_neg at hon
      have hoff : writeWordCells dir n g w row col 0 p.1 p.2 = g p.1 p.2 :=
        writeWordCells_off dir n w g row col 0 p
          (fun j hj => hon j hj)
      rw [hoff]
      constructor
      · rintro (hin | hc)
        · exact (hd p n').mp hin
        · exact absurd hc (fun hc2 => h0 hc2.1)
      · intro hcell
        left
        exact (hd p n').mpr hcell

theorem commitWord_numInv (st : BuildState) (wordObj : Entry) (row col : Int)
    (dir : Direction) (hw : wordObj.word.data.length ≠ 0)
    (hinv : NumInv st) : NumInv (commitWord st wordObj row col dir) := by
  obtain ⟨ha, hbnd, hcnd, hd, he, hf, hg⟩ := hinv
  cases hl : lookupPos st.numberLocations (row, col) with
  | some n =>
      obtain ⟨hgrid, hmap, hctr, hca, hcd, hpl, hwd⟩ :=
        commitWord_fields_reuse st wordObj row col dir n hl
      have hstartmem : ((row, col), n) ∈ st.numberLocations :=
        lookupPos_some_mem _ _ _ hl
      have hmem : ∀ (p : Int × Int) (n' : Nat),
          (p, n') ∈ (commitWord st wordObj row col dir).numberLocations ↔
            ((p, n') ∈ st.numberLocations ∨ (p = (row, col) ∧ n' = n)) := by
        intro p n'
        rw [hmap]
        constructor
        · intro h; exact Or.inl h
        · rintro (h | ⟨hp, hn⟩)
          · exact h
          · rw [hp, hn]; exact hstartmem
      have huniq : ∀ n', ((row, col), n') ∈ st.numberLocations → n' = n :=
        fun n' h => keys_nodup_val_eq st.numberLocations hbnd (row, col) n' n
          h hstartmem
      refine ⟨?_, ?_, ?_, ?_, ?_, ?_, ?_⟩
      · intro pr hpr
        rw [hmap] at hpr
        rw [hctr]
        exact ha pr hpr
      · rw [hmap]; exact hbnd
      · rw [hmap]; exact hcnd
      · intro p n'
        rw [hgrid]
        exact numInv_d_preserved st.grid wordObj.word.data row col dir n
          st.numberLocations _ hw hmem huniq hd p n'
      · intro cl hcl
        rw [hca] at hcl
        rw [hmap, hpl]
        cases dir with
        | across =>
            rcases List.mem_append.mp hcl with hold | hnew
            · obtain ⟨pw, hpw, hdir, hm⟩ := he cl hold
              exact ⟨pw, List.mem_append_left _ hpw, hdir, hm⟩
            · have : cl = ⟨n, wordObj.clue⟩ := List.mem_singleton.mp hnew
              refine ⟨⟨wordObj.word, wordObj.clue, row, col, .across⟩,
                List.mem_append_right _ (List.mem_singleton.mpr rfl), rfl, ?_⟩
              rw [this]
              exact hstartmem
        | down =>
            obtain ⟨pw, hpw, hdir, hm⟩ := he cl hcl
            exact ⟨pw, List.mem_append_left _ hpw, hdir, hm⟩
      · intro cl hcl
        rw [hcd] at hcl
        rw [hmap, hpl]
        cases dir with
        | across =>
            obtain ⟨pw, hpw, hdir, hm⟩ := hf cl hcl
            exact ⟨pw, List.mem_append_left _ hpw, hdir, hm⟩
        | down =>
            rcases List.mem_append.mp hcl with hold | hnew
            · obtain ⟨pw, hpw, hdir, hm⟩ := hf cl hold
              exact ⟨pw, List.mem_append_left _ hpw, hdir, hm⟩
            · have : cl = ⟨n, wordObj.clue⟩ := List.mem_singleton.mp hnew
              refine ⟨⟨wordObj.word, wordObj.clue, row, col, .down⟩,
                List.mem_append_right _ (List.mem_singleton.mpr rfl), rfl, ?_⟩
              rw [this]
              exact hstartmem
      · intro e he'
        rw [hwd] at he'
        exact hg e he'
  | none =>
      obtain ⟨hgrid, hmap, hctr, hca, hcd, hpl, hwd⟩ :=
        commitWord_fields_fresh st wordObj row col dir hl
      have hnostart := lookupPos_none st.numberLocations (row, col) hl
      have hmem : ∀ (p : Int × Int) (n' : Nat),
          (p, n') ∈ (commitWord st wordObj row col dir).numberLocations ↔
            ((p, n') ∈ st.numberLocations ∨
              (p = (row, col) ∧ n' = st.clueCounter)) := by
        intro p n'
        rw [hmap, List.mem_append, List.mem_singleton]
        constructor
        · rintro (h | h)
          · exact Or.inl h
          · right
            exact ⟨congrArg Prod.fst h, congrArg Prod.snd h⟩
        · rintro (h | ⟨hp, hn⟩)
          · exact Or.inl h
          · right
            rw [hp, hn]
      have huniq : ∀ n', ((row, col), n') ∈ st.numberLocations →
          n' = st.clueCounter :=
        fun n' h => absurd h (hnostart n')
      have hstartmem' : ((row, col), st.clueCounter) ∈
          (commitWord st wordObj row col dir).numberLocations := by
        rw [hmap]
        exact List.mem_append_right _ (List.mem_singleton.mpr rfl)
      refine ⟨?_, ?_, ?_, ?_, ?_, ?_, ?_⟩
      · intro pr hpr
        rw [hmap] at hpr
        rw [hctr]
        rcases List.mem_append.mp hpr with hold | hnew
        · have := ha pr hold
          omega
        · have : pr = ((row, col), st.clueCounter) := List.mem_singleton.mp hnew
          rw [this]
          omega
      · rw [hmap, List.map_append]
        rw [List.nodup_append]
        refine ⟨hbnd, List.nodup_singleton _, ?_⟩
        intro k hk hk1
        obtain ⟨pr, hpr, hkey⟩ := List.mem_map.mp hk
        have hk2 : k = (row, col) := List.mem_singleton.mp hk1
        apply hnostart pr.2
        have : pr = ((row, col), pr.2) := by
          rw [← hk2, ← hkey]
        rw [← this]
        exact hpr
      · rw [hmap, List.map_append]
        rw [List.nodup_append]
        refine ⟨hcnd, List.nodup_singleton _, ?_⟩
        intro k hk hk1
        obtain ⟨pr, hpr, hkey⟩ := List.mem_map.mp hk
        have hk2 : k = st.clueCounter := List.mem_singleton.mp hk1
        have := ha pr hpr
        omega
      · intro p n'
        rw [hgrid]
        exact numInv_d_preserved st.grid wordObj.word.data row col dir
          st.clueCounter st.numberLocations _ hw hmem huniq hd p n'
      · intro cl hcl
        rw [hca] at hcl
        rw [hpl]
        cases dir with
        | across =>
            rcases List.mem_append.mp hcl with hold | hnew
            · obtain ⟨pw, hpw, hdir, hm⟩ := he cl hold
              refine ⟨pw, List.mem_append_left _ hpw, hdir, ?_⟩
              rw [hmap]
              exact List.mem_append_left _ hm
            · have : cl = ⟨st.clueCounter, wordObj.clue⟩ :=
                List.mem_singleton.mp hnew
              refine ⟨⟨wordObj.word, wordObj.clue, row, col, .across⟩,
                List.mem_append_right _ (List.mem_singleton.mpr rfl), rfl, ?_⟩
              rw [this]
              exact hstartmem'
        | down =>
            obtain ⟨pw, hpw, hdir, hm⟩ := he cl hcl
            refine ⟨pw, List.mem_append_left _ hpw, hdir, ?_⟩
            rw [hmap]
            exact List.mem_append_left _ hm
      · intro cl hcl
        rw [hcd] at hcl
        rw [hpl]
        cases dir with
        | across =>
            obtain ⟨pw, hpw, hdir, hm⟩ := hf cl hcl
            refine ⟨pw, List.mem_append_left _ hpw, hdir, ?_⟩
            rw [hmap]
            exact List.mem_append_left _ hm
        | down =>
            rcases List.mem_append.mp hcl with hold | hnew
            · obtain ⟨pw, hpw, hdir, hm⟩ := hf cl hold
              refine ⟨pw, List.mem_append_left _ hpw, hdir, ?_⟩
              rw [hmap]
              exact List.mem_append_left _ hm
            · have : cl = ⟨st.clueCounter, wordObj.clue⟩ :=
                List.mem_singleton.mp hnew
              refine ⟨⟨wordObj.word, wordObj.clue, row, col, .down⟩,
                List.mem_append_right _ (List.mem_singleton.mpr rfl), rfl, ?_⟩
              rw [this]
              exact hstartmem'
      · intro e he'
        rw [hwd] at he'
        exact hg e he'

theorem tryIndex_numInv (st : BuildState) (i : Nat) (st' : BuildState)
    (h : tryIndex st i = some st') (hinv : NumInv st) : NumInv st' := by
  unfold tryIndex at h
  cases hgw : st.words.get? i with
  | none => rw [hgw] at h; cases h
  | some wordObj =>
      rw [hgw] at h
      dsimp only at h
      cases hfb : findBestFit st.grid wordObj.word.data st.placedWords with
      | none => rw [hfb] at h; cases h
      | some fit =>
          rw [hfb] at h
          dsimp only at h
          cases h
          have hwmem : wordObj ∈ st.words := List.get?_mem hgw
          have hwne : wordObj.word.data.length ≠ 0 :=
            hinv.2.2.2.2.2.2 wordObj hwmem
          have hc := commitWord_numInv st wordObj fit.row fit.col
            fit.direction hwne hinv
          obtain ⟨ha, hb, hcn, hd, he, hf, _⟩ := hc
          exact ⟨ha, hb, hcn, hd, he, hf,
            fun e he' => hinv.2.2.2.2.2.2 e
              (List.mem_of_mem_eraseIdx he')⟩

theorem scanDown_numInv (st : BuildState) :
    ∀ (k : Nat) (st' : BuildState), scanDown st k = some st' →
      NumInv st → NumInv st' := by
  intro k
  induction k with
  | zero => intro st' h; cases h
  | succ i ih =>
      intro st' h hinv
      unfold scanDown at h
      cases ht : tryIndex st i with
      | some st'' =>
          rw [ht] at h
          cases h
          exact tryIndex_numInv st i st' ht hinv
      | none =>
          rw [ht] at h
          exact ih st' h hinv

theorem loopStep_numInv (st : BuildState) (hinv : NumInv st) :
    NumInv (loopStep st) := by
  unfold loopStep
  cases hs : scanDown st st.words.length with
  | some st' => exact scanDown_numInv st _ st' hs hinv
  | none =>
      obtain ⟨ha, hb, hcn, hd, he, hf, hg⟩ := hinv
      exact ⟨ha, hb, hcn, hd, he, hf, hg⟩

theorem stateAfterFirst_numInv (first : Entry) (rest : List Entry)
    (hfirst : first.word.data.length ≠ 0)
    (hrest : ∀ e ∈ rest, e.word.data.length ≠ 0) :
    NumInv (stateAfterFirst first rest) := by
  unfold stateAfterFirst
  apply commitWord_numInv _ _ _ _ _ hfirst
  refine ⟨?_, ?_, ?_, ?_, ?_, ?_, ?_⟩
  · intro pr hpr; cases hpr
  · exact List.nodup_nil
  · exact List.nodup_nil
  · intro p n
    constructor
    · intro h; cases h
    · rintro ⟨cell, hcell, _⟩
      cases hcell
  · intro cl hcl; cases hcl
  · intro cl hcl; cases hcl
  · exact hrest

theorem insertByLen_mem (x y : Entry) :
    ∀ ys : List Entry, x ∈ insertByLen y ys → x = y ∨ x ∈ ys := by
  intro ys
  induction ys with
  | nil =>
      intro h
      unfold insertByLen at h
      exact Or.inl (List.mem_singleton.mp h)
  | cons z zs ih =>
      intro h
      unfold insertByLen at h
      by_cases hc : y.word.length ≤ z.word.length
      · rw [if_pos hc] at h
        rcases List.mem_cons.mp h with hz | hrest
        · exact Or.inr (hz ▸ List.mem_cons_self _ _)
        · rcases ih hrest with h1 | h2
          · exact Or.inl h1
          · exact Or.inr (List.mem_cons_of_mem _ h2)
      · rw [if_neg hc] at h
        rcases List.mem_cons.mp h with hy | hrest
        · exact Or.inl hy
        · exact Or.inr hrest

theorem sortWordsDesc_mem (l : List Entry) (x : Entry)
    (h : x ∈ sortWordsDesc l) : x ∈ l := by
  suffices hgen : ∀ (l acc : List Entry),
      x ∈ l.foldl (fun acc y => insertByLen y acc) acc → x ∈ l ∨ x ∈ acc by
    rcases hgen l [] h with h1 | h2
    · exact h1
    · cases h2
  intro l
  induction l with
  | nil => intro acc h; exact Or.inr h
  | cons y ys ih =>
      intro acc h
      rw [List.foldl_cons] at h
      rcases ih (insertByLen y acc) h with h1 | h2
      · exact Or.inl (List.mem_cons_of_mem _ h1)
      · rcases insertByLen_mem x y acc h2 with h3 | h4
        · exact Or.inl (h3 ▸ List.mem_cons_self _ _)
        · exact Or.inr h4

theorem normalizeWords_mem (entries : List Entry) (e : Entry)
    (h : e ∈ normalizeWords entries) : e ∈ survivors entries := by
  unfold normalizeWords dedupeWords at h
  obtain ⟨pr, hpr, hsnd⟩ := List.mem_map.mp h
  rcases jsMapInsertAll_last (survivors entries) [] pr hpr with hlast | ⟨hm, _⟩
  · have hmem := getLast?_mem_of_eq_some _ _ hlast
    have := List.mem_of_mem_filter hmem
    rw [hsnd] at this
    exact this
  · cases hm

theorem normalizeWords_nonempty (entries : List Entry) (e : Entry)
    (h : e ∈ normalizeWords entries) : e.word.data.length ≠ 0 := by
  have hs := normalizeWords_mem entries e h
  have hk : keepEntry e = true := List.of_mem_filter hs
  unfold keepEntry at hk
  have h1 : e.word.length > 1 := by
    have := (Bool.and_eq_true _ _).mp hk
    exact of_decide_eq_true this.1
  have hlen : e.word.length = e.word.data.length := rfl
  omega

theorem insertClue_perm (x : ClueEntry) :
    ∀ l : List ClueEntry, (insertClue x l).Perm (x :: l) := by
  intro l
  induction l with
  | nil => exact List.Perm.refl _
  | cons y ys ih =>
      unfold insertClue
      by_cases hc : y.number ≤ x.number
      · rw [if_pos hc]
        exact (List.Perm.cons y ih).trans (List.Perm.swap x y ys)
      · rw [if_neg hc]

theorem sortCluesAsc_perm (l : List ClueEntry) : (sortCluesAsc l).Perm l := by
  suffices hgen : ∀ (l acc : List ClueEntry),
      (l.foldl (fun acc y => insertClue y acc) acc).Perm (l ++ acc) by
    have := hgen l []
    simpa using this
  intro l
  induction l with
  | nil => intro acc; exact List.Perm.refl _
  | cons y ys ih =>
      intro acc
      rw [List.foldl_cons]
      exact (ih (insertClue y acc)).trans
        ((List.Perm.append_left ys (insertClue_perm y acc)).trans
          List.perm_middle)

/-- Claim C5 (confirmed): every clue number appearing in the across or down
list marks exactly one grid cell (via its `clueNumber` field); and a number
present in both lists always comes from an across word and a down word
starting at the same cell, whose start cell carries that number. -/
theorem c5_clue_numbering (entries : List Entry) (res : GenResult)
    (h : generatePuzzle entries = Except.ok res) :
    (∀ n, ((∃ cl ∈ res.cluesAcross, cl.number = n) ∨
        (∃ cl ∈ res.cluesDown, cl.number = n)) →
      ∃! p : Int × Int, ∃ cell, res.grid p.1 p.2 = some cell ∧
        cell.clueNumber = some n) ∧
    (∀ n, (∃ cl ∈ res.cluesAcross, cl.number = n) →
      (∃ cl ∈ res.cluesDown, cl.number = n) →
      ∃ pwA ∈ res.placedWords, ∃ pwD ∈ res.placedWords,
        pwA.direction = .across ∧ pwD.direction = .down ∧
        pwA.row = pwD.row ∧ pwA.col = pwD.col ∧
        ∃ cell, res.grid pwA.row pwA.col = some cell ∧
          cell.clueNumber = some n) := by
  unfold generatePuzzle at h
  by_cases hlen : (sortWordsDesc (normalizeWords entries)).length < 2
  · rw [if_pos hlen] at h; cases h
  · rw [if_neg hlen] at h
    cases hws : sortWordsDesc (normalizeWords entries) with
    | nil => rw [hws] at hlen; simp at hlen
    | cons first rest =>
        rw [hws] at h
        dsimp only at h
        cases hrun : loopRun (rest.length * rest.length)
            (stateAfterFirst first rest) with
        | none => rw [hrun] at h; cases h
        | some st =>
            rw [hrun] at h
            dsimp only at h
            have hres := Except.ok.inj h
            have hfirst : first.word.data.length ≠ 0 := by
              apply normalizeWords_nonempty entries first
              apply sortWordsDesc_mem
              rw [hws]
              exact List.mem_cons_self _ _
            have hrest : ∀ e ∈ rest, e.word.data.length ≠ 0 := by
              intro e he'
              apply normalizeWords_nonempty entries e
              apply sortWordsDesc_mem
              rw [hws]
              exact List.mem_cons_of_mem _ he'
            have hinv : NumInv st :=
              loopRun_preserves NumInv loopStep_numInv
                (rest.length * rest.length) (stateAfterFirst first rest) st
                hrun (stateAfterFirst_numInv first rest hfirst hrest)
            obtain ⟨ha, hbnd, hcnd, hd, he, hf, _⟩ := hinv
            rw [← hres]
            dsimp only
            have hmemA : ∀ cl, cl ∈ sortCluesAsc st.cluesAcross →
                cl ∈ st.cluesAcross :=
              fun cl hcl => (sortCluesAsc_perm st.cluesAcross).mem_iff.mp hcl
            have hmemD : ∀ cl, cl ∈ sortCluesAsc st.cluesDown →
                cl ∈ st.cluesDown :=
              fun cl hcl => (sortCluesAsc_perm st.cluesDown).mem_iff.mp hcl
            constructor
            · intro n hn
              have hmap : ∃ p : Int × Int, (p, n) ∈ st.numberLocations := by
                rcases hn with ⟨cl, hcl, hnum⟩ | ⟨cl, hcl, hnum⟩
                · obtain ⟨pw, _, _, hm⟩ := he cl (hmemA cl hcl)
                  exact ⟨(pw.row, pw.col), hnum ▸ hm⟩
                · obtain ⟨pw, _, _, hm⟩ := hf cl (hmemD cl hcl)
                  exact ⟨(pw.row, pw.col), hnum ▸ hm⟩
              obtain ⟨p, hp⟩ := hmap
              obtain ⟨cell, hcell, hnum⟩ := (hd p n).mp hp
              refine ⟨p, ⟨cell, hcell, hnum⟩, ?_⟩
              intro q hq
              have hq' : (q, n) ∈ st.numberLocations := (hd q n).mpr hq
              exact vals_nodup_key_eq st.numberLocations hcnd q p n hq' hp
            · intro n hA hD
              obtain ⟨clA, hclA, hnumA⟩ := hA
              obtain ⟨clD, hclD, hnumD⟩ := hD
              obtain ⟨pwA, hpwA, hdirA, hmA⟩ := he clA (hmemA clA hclA)
              obtain ⟨pwD, hpwD, hdirD, hmD⟩ := hf clD (hmemD clD hclD)
              rw [hnumA] at hmA
              rw [hnumD] at hmD
              have heqp : ((pwA.row, pwA.col) : Int × Int) = (pwD.row, pwD.col) :=
                vals_nodup_key_eq st.numberLocations hcnd _ _ n hmA hmD
              obtain ⟨cell, hcell, hnum⟩ := (hd (pwA.row, pwA.col) n).mp hmA
              exact ⟨pwA, hpwA, pwD, hpwD, hdirA, hdirD,
                congrArg Prod.fst heqp, congrArg Prod.snd heqp,
                cell, hcell, hnum⟩

/-- Witness for C5 at a concrete two-word input: clue number 1 marks exactly
one cell of the produced grid. -/
theorem c5_clue_numbering_witness :
    ∃ res, generatePuzzle [⟨"AB", "c1"⟩, ⟨"BA", "c2"⟩] = Except.ok res ∧
      ∃! p : Int × Int, ∃ cell, res.grid p.1 p.2 = some cell ∧
        cell.clueNumber = some 1 := by
  refine ⟨_, rfl, (c5_clue_numbering [⟨"AB", "c1"⟩, ⟨"BA", "c2"⟩] _ rfl).1 1
    (Or.inl ?_)⟩
  exact ⟨⟨1, "c1"⟩, by decide, rfl⟩
